import Mathlib

/-!  Verification of the raycasting engine in raycast.c.

The definitions below are a shallow embedding of the C source: machine
floats are idealised as exact rationals (`ℚ`) where the code is pure
arithmetic, and as reals (`ℝ`) where trigonometric functions are involved;
the framebuffer is a total function from indices to colors; the wall and
sprite grids are the literal arrays from the source.  Line numbers refer
to raycast.c.  -/

namespace Raycast

/-! ## Configuration constants (raycast.c lines 32-54) -/

def SCREEN_WIDTH : ℤ := 1024
def SCREEN_HEIGHT : ℤ := 512
def MAPX : ℤ := 8
def MAPY : ℤ := 8
def MAP_CELL_SIZE : ℤ := 64

/-- Static wall layout (raycast.c lines 57-66), row-major 8x8.
0 is empty space, 1..3 are wall materials. -/
def map : List ℤ :=
  [3,3,3,3,3,1,1,1,
   3,0,0,0,0,1,0,1,
   3,0,0,0,0,0,0,1,
   3,0,0,0,0,0,0,1,
   3,3,0,0,0,0,2,1,
   1,0,0,0,0,2,2,3,
   1,0,0,0,0,0,0,3,
   1,1,1,1,1,1,1,3]

/-- Static sprite layout (raycast.c lines 69-78), row-major 8x8.
0 is no sprite, 1..8 are object kinds, 8 (light) is walkable. -/
def map_sprites : List ℤ :=
  [0,0,0,0,0,0,0,0,
   0,2,0,0,5,0,6,0,
   0,0,0,8,0,0,8,0,
   0,3,0,0,0,0,7,0,
   0,0,0,0,0,1,0,0,
   0,0,0,8,0,0,0,0,
   0,2,0,0,0,8,4,0,
   0,0,0,0,0,0,0,0]

/-- Read of the flat C array map[n]; out-of-range reads never happen in the
source because every access is behind a bounds check, so the default 0 is
inert. -/
def mapAt (n : ℤ) : ℤ := map.getD n.toNat 0

/-- Read of the flat C array map_sprites[n]. -/
def spriteAt (n : ℤ) : ℤ := map_sprites.getD n.toNat 0

lemma getD_nonneg (l : List ℤ) (h : ∀ z ∈ l, 0 ≤ z) (k : ℕ) : 0 ≤ l.getD k 0 := by
  induction l generalizing k with
  | nil => simp [List.getD]
  | cons a t ih =>
    cases k with
    | zero => simpa using h a (by simp)
    | succ k => simpa [List.getD] using ih (fun z hz => h z (by simp [hz])) k

lemma mapAt_nonneg (n : ℤ) : 0 ≤ mapAt n :=
  getD_nonneg map (by decide) n.toNat

lemma spriteAt_nonneg (n : ℤ) : 0 ≤ spriteAt n :=
  getD_nonneg map_sprites (by decide) n.toNat

/-! ## Collision probe (raycast.c lines 838-858) -/

/-- check_collision: converts world coordinates to a grid cell by floor
division on the cell size, then reports a collision outside the map bounds,
on a nonzero wall cell, or on a sprite cell holding a code in 1..7. -/
def check_collision (x y : ℚ) : Bool :=
  let mapX : ℤ := ⌊x / 64⌋
  let mapY : ℤ := ⌊y / 64⌋
  if mapX < 0 ∨ 8 ≤ mapX ∨ mapY < 0 ∨ 8 ≤ mapY then true
  else if 0 < mapAt (mapY * 8 + mapX) then true
  else if 0 < spriteAt (mapY * 8 + mapX) ∧ spriteAt (mapY * 8 + mapX) < 8 then true
  else false

/-! ## Framebuffer point primitive (raycast.c lines 208-222) -/

/-- r_drawpoint: bounds-checked single pixel write into the flat
framebuffer, a silent no-op outside the screen rectangle. -/
def r_drawpoint (x y color : ℤ) (pixels : ℤ → ℤ) : ℤ → ℤ :=
  if x < 0 ∨ 1024 ≤ x ∨ y < 0 ∨ 512 ≤ y then pixels
  else
    let index := 1024 * y + x
    if index < 0 ∨ 1024 * 512 ≤ index then pixels
    else Function.update pixels index color

/-! ## Bresenham line drawing (raycast.c lines 225-255) -/

/-- Loop body of r_drawline (raycast.c lines 236-254), fuel bounded: draw
the current point, stop on reaching the end point, otherwise advance x
and/or y according to the snapshot of the integer error accumulator.  Both
step tests read the same snapshot, so the combined error update is
err - dy (when x steps) + dx (when y steps).  Fuel exhaustion returns
none; the termination theorem shows fuel |x1-x0| + |y1-y0| + 1 always
suffices. -/
def drawlineLoop (x1 y1 sx sy dx dy : ℤ) :
    ℕ → ℤ → ℤ → ℤ → List (ℤ × ℤ) → Option (List (ℤ × ℤ))
  | 0, _, _, _, _ => none
  | fuel + 1, x0, y0, err, acc =>
    if x0 = x1 ∧ y0 = y1 then some ((x0, y0) :: acc)
    else
      drawlineLoop x1 y1 sx sy dx dy fuel
        (if -dx < err then x0 + sx else x0)
        (if err < dy then y0 + sy else y0)
        ((if err < dy then dx else 0) + (if -dx < err then err - dy else err))
        ((x0, y0) :: acc)

/-- Absolute coordinate difference (raycast.c lines 227-228). -/
def bres_dx (x0 x1 : ℤ) : ℤ := if x1 > x0 then x1 - x0 else x0 - x1

/-- Step direction (raycast.c lines 230-231). -/
def bres_sx (x0 x1 : ℤ) : ℤ := if x0 < x1 then 1 else -1

/-- Initial error (raycast.c line 232).  C computes (dx > dy ? dx : -dy)/2
with truncating division; since dy is non-negative, C's (-dy)/2 equals
-(dy/2), which is how it is written here to keep the same value under
Lean's floor-convention integer division. -/
def bres_err (dx dy : ℤ) : ℤ := if dx > dy then dx / 2 else -(dy / 2)

/-- r_drawline (raycast.c lines 225-255): all-integer Bresenham line.  The
result is the list of drawn points (in reverse draw order), or none if the
fuel bound were ever insufficient. -/
def r_drawline (x0 y0 x1 y1 : ℤ) : Option (List (ℤ × ℤ)) :=
  drawlineLoop x1 y1 (bres_sx x0 x1) (bres_sx y0 y1)
    (bres_dx x0 x1) (bres_dx y0 y1)
    (bres_dx x0 x1 + bres_dx y0 y1 + 1).toNat x0 y0
    (bres_err (bres_dx x0 x1) (bres_dx y0 y1)) []

/-! ## Screen clear (raycast.c lines 258-261) -/

/-- memset stores the value argument converted to unsigned char, i.e. its
low byte, into every byte of the destination. -/
def memset_stored_byte (value : ℤ) : ℤ := value % 256

/-- Every byte of the framebuffer after r_clearscreenbuffer, which calls
memset(pixels, 0xFFBBBBBB, 4 * SCREEN_WIDTH * SCREEN_HEIGHT). -/
def r_clearscreenbuffer_byte : ℤ := memset_stored_byte 0xFFBBBBBB

/-- The 32-bit pixel value assembled from four cleared framebuffer bytes
(all four bytes are equal, so the assembly is endianness independent). -/
def cleared_pixel : ℤ :=
  r_clearscreenbuffer_byte + 256 * r_clearscreenbuffer_byte +
    65536 * r_clearscreenbuffer_byte + 16777216 * r_clearscreenbuffer_byte

/-! ## Distance shading factors (raycast.c lines 419-421, 625-626, 659-660,
691-697) -/

/-- Wall shading (lines 691-697): linear attenuation of the corrected
distance, clamped below by WALL_MIN_BRIGHTNESS = 0.7, and, after that
clamp, multiplied by 0.8 when the hit was on a vertical face. -/
def wallClamped (correctedDistance : ℚ) : ℚ :=
  if 1 - correctedDistance / (64 * 15) < 7/10 then 7/10
  else 1 - correctedDistance / (64 * 15)

def wallDarkening (correctedDistance : ℚ) (hitVertical : Bool) : ℚ :=
  if hitVertical then wallClamped correctedDistance * (8/10)
  else wallClamped correctedDistance

/-- Floor shading (lines 625-626): linear attenuation clamped below by
FLOOR_MIN_BRIGHTNESS = 0.65. -/
def floorDarkening (floorDistance : ℚ) : ℚ :=
  if 1 - floorDistance / (64 * 15) < 13/20 then 13/20
  else 1 - floorDistance / (64 * 15)

/-- Ceiling shading (lines 659-660): linear attenuation times the fixed
0.85 ceiling multiplier, clamped below by CEILING_MIN_BRIGHTNESS = 0.65. -/
def ceilingDarkening (ceilDistance : ℚ) : ℚ :=
  if (1 - ceilDistance / (64 * 15)) * (85/100) < 13/20 then 13/20
  else (1 - ceilDistance / (64 * 15)) * (85/100)

/-- Sprite shading (lines 419-421): linear attenuation of the straight-line
sprite distance, clamped below by SPRITE_MIN_BRIGHTNESS = 0.7. -/
def spriteDarkening (dist : ℚ) : ℚ :=
  if 1 - dist / (64 * 11) < 7/10 then 7/10
  else 1 - dist / (64 * 11)

/-! ## Sprite collection and sort (raycast.c lines 104-108, 301-330) -/

/-- Sprite render record (raycast.c lines 104-108), polymorphic in the
scalar type so that the same sort serves the real-valued collection and
concrete rational evaluation. -/
structure Sprite (α : Type) where
  x : α
  y : α
  dist : α
  ty : ℤ
deriving DecidableEq

/-- One execution of the inner loop of the sprite exchange sort
(raycast.c lines 323-329) for a fixed outer index: the current slot value
c is compared in order against every later element, swapping whenever the
slot value has strictly smaller distance; returns the final slot value
and the rewritten tail. -/
def innerPass {α : Type} [LinearOrder α] (c : Sprite α) :
    List (Sprite α) → Sprite α × List (Sprite α)
  | [] => (c, [])
  | s :: rest =>
    if c.dist < s.dist then
      ((innerPass s rest).1, c :: (innerPass s rest).2)
    else
      ((innerPass c rest).1, s :: (innerPass c rest).2)

lemma innerPass_length {α : Type} [LinearOrder α] (c : Sprite α)
    (l : List (Sprite α)) : (innerPass c l).2.length = l.length := by
  induction l generalizing c with
  | nil => rfl
  | cons s rest ih =>
    unfold innerPass
    split_ifs <;> simp [ih]

/-- The full sprite sort (raycast.c lines 321-330): the outer loop fixes
slot i and the inner pass brings the farthest remaining instance into it. -/
def sortSprites {α : Type} [LinearOrder α] : List (Sprite α) → List (Sprite α)
  | [] => []
  | s :: rest => (innerPass s rest).1 :: sortSprites (innerPass s rest).2
termination_by l => l.length
decreasing_by simp [innerPass_length]

/-- Sprite collection (raycast.c lines 305-319): one instance per nonzero
sprite-placement cell, positioned at the cell center, with straight-line
distance to the player. -/
noncomputable def collectSprites (px py : ℝ) : List (Sprite ℝ) :=
  (List.range 8).flatMap fun my =>
    (List.range 8).flatMap fun mx =>
      if 0 < spriteAt (my * 8 + mx) then
        [⟨64 * mx + 32, 64 * my + 32,
          Real.sqrt ((64 * mx + 32 - px) ^ 2 + (64 * my + 32 - py) ^ 2),
          spriteAt (my * 8 + mx)⟩]
      else []

/-! ## Sprite depth test and column drawing (raycast.c lines 391-428) -/

/-- The interpolated wall distance used for the sprite depth test at
screen column x (raycast.c lines 398-404): the pixel column is mapped
back to a fractional ray index, the two neighbouring wall-distance
entries are linearly interpolated, and the indices are clamped at the
first and last ray with the interpolation weight forced to 0 there. -/
def rayIndexF (column_width : ℚ) (x : ℤ) : ℚ :=
  (1024 - ((x : ℚ) + 1/2)) / column_width

/-- The final interpolation weight after both clamps: the raw fractional
part of the ray index, forced to 0 when either index was clamped. -/
def interpT (column_width : ℚ) (x : ℤ) : ℚ :=
  if 256 ≤ ⌊rayIndexF column_width x⌋ + 1 then 0
  else if ⌊rayIndexF column_width x⌋ < 0 then 0
  else rayIndexF column_width x - (⌊rayIndexF column_width x⌋ : ℚ)

def interpR0 (column_width : ℚ) (x : ℤ) : ℤ :=
  if ⌊rayIndexF column_width x⌋ < 0 then 0 else ⌊rayIndexF column_width x⌋

def interpR1 (column_width : ℚ) (x : ℤ) : ℤ :=
  if 256 ≤ ⌊rayIndexF column_width x⌋ + 1 then 255
  else ⌊rayIndexF column_width x⌋ + 1

def interpWallDist (wall_distances : ℤ → ℚ) (column_width : ℚ) (x : ℤ) : ℚ :=
  (1 - interpT column_width x) * wall_distances (interpR0 column_width x) +
    interpT column_width x * wall_distances (interpR1 column_width x)

/-- Distance-shaded sprite pixel color (raycast.c lines 419-426): each
8-bit channel is scaled by the sprite darkening factor (truncated back to
an integer, which is a floor since everything is non-negative) and the
channels are reassembled under an opaque alpha byte. -/
def spriteShade (color : ℤ) (dist : ℚ) : ℤ :=
  0xFF000000 + ⌊(color / 65536 % 256 : ℤ) * spriteDarkening dist⌋ * 65536 +
    ⌊(color / 256 % 256 : ℤ) * spriteDarkening dist⌋ * 256 +
    ⌊(color % 256 : ℤ) * spriteDarkening dist⌋

/-- The texture sample feeding screen row y of a sprite column
(raycast.c lines 412-416). -/
def spriteTexSample (tex : ℤ → ℤ) (texX texY_start sprite_h drawStartY y : ℤ) : ℤ :=
  tex ((let texY0 := texY_start + (y - drawStartY) * 64 / sprite_h
        if texY0 < 0 then 0 else if 64 ≤ texY0 then 63 else texY0) * 64 + texX)

/-- The writes performed by the vertical strip loop of one sprite column
(raycast.c lines 410-427): every row y in [drawStartY, drawEndY] whose
texture sample is not the transparent sentinel 0xFFFF00FF yields one
shaded write at (x, y); sentinel samples are skipped. -/
def spriteColumnPixels (tex : ℤ → ℤ) (texX texY_start sprite_h : ℤ)
    (drawStartY drawEndY : ℤ) (x : ℤ) (dist : ℚ) : List (ℤ × ℤ × ℤ) :=
  (List.range (drawEndY + 1 - drawStartY).toNat).filterMap fun k : ℕ =>
    if spriteTexSample tex texX texY_start sprite_h drawStartY
        (drawStartY + (k : ℤ)) = 0xFFFF00FF
    then none
    else some (x, drawStartY + (k : ℤ),
      spriteShade (spriteTexSample tex texX texY_start sprite_h drawStartY
        (drawStartY + (k : ℤ))) dist)

/-- One full sprite screen column (raycast.c lines 391-427): the texture
X coordinate is derived and clamped, the interpolated wall distance is
computed, and the whole column is skipped when the sprite's perpendicular
distance is not nearer than the wall by more than the epsilon 0.0005. -/
def spriteTexX (texX_start sprite_w drawStartX x : ℤ) : ℤ :=
  if texX_start + (x - drawStartX) * 64 / sprite_w < 0 then 0
  else if 64 ≤ texX_start + (x - drawStartX) * 64 / sprite_w then 63
  else texX_start + (x - drawStartX) * 64 / sprite_w

def renderSpriteColumn (wall_distances : ℤ → ℚ) (column_width : ℚ)
    (perpDist dist : ℚ) (tex : ℤ → ℤ) (texX_start sprite_w texY_start sprite_h : ℤ)
    (drawStartX drawStartY drawEndY : ℤ) (x : ℤ) : List (ℤ × ℤ × ℤ) :=
  if perpDist > interpWallDist wall_distances column_width x - 1/2000 then []
  else spriteColumnPixels tex (spriteTexX texX_start sprite_w drawStartX x)
    texY_start sprite_h drawStartY drawEndY x dist

/-! ## Hit selection between the two grid-line tests (raycast.c
lines 538-565) -/

/-- The winner selection of r_raycast: the horizontal-test candidate is
taken only when its distance is strictly smaller, otherwise the
vertical-test candidate is recorded (hit point, distance, orientation
flag, wall material).  Polymorphic in the scalar type so that the same
definition serves the real-valued ray caster and concrete evaluation. -/
def selectHit {α : Type} [LinearOrder α] (distanceH distanceV : α)
    (hitX_H hitY_H : α) (wallType_H : ℤ)
    (hitX_V hitY_V : α) (wallType_V : ℤ) : α × α × α × Bool × ℤ :=
  if distanceH < distanceV then (hitX_H, hitY_H, distanceH, false, wallType_H)
  else (hitX_V, hitY_V, distanceV, true, wallType_V)

/-! ## Ray grid traversal (raycast.c lines 443-536).

The horizontal-crossing loop (lines 469-490) and the vertical-crossing
loop (lines 514-536) have the same body: convert the test point to a
cell, stop outside the map or on a nonzero cell, otherwise advance by the
per-crossing deltas.  They differ only in their initial point and deltas,
so one stepping function serves both.  The grid is passed as the flat
array read map[mapY * MAPX + mapX] so that hypothetical grids (the
boundary-wall scenario of the claim) can be substituted for the static
map. -/

/-- The DDA stepping loop, fuel-bounded exactly like the C for loop
(depth < 8).  Returns the hit point and the wall code, or none. -/
noncomputable def stepLoop (g : ℤ → ℤ) (deltaX deltaY : ℝ) :
    ℕ → ℝ → ℝ → Option (ℝ × ℝ × ℤ)
  | 0, _, _ => none
  | depth + 1, testX, testY =>
    if ⌊testX / 64⌋ < 0 ∨ 8 ≤ ⌊testX / 64⌋ ∨ ⌊testY / 64⌋ < 0 ∨ 8 ≤ ⌊testY / 64⌋
    then none
    else if 0 < g (⌊testY / 64⌋ * 8 + ⌊testX / 64⌋) then
      some (testX, testY, g (⌊testY / 64⌋ * 8 + ⌊testX / 64⌋))
    else stepLoop g deltaX deltaY depth (testX + deltaX) (testY + deltaY)

/-- The number of loop-body executions of the same stepping loop. -/
noncomputable def stepLoopCount (g : ℤ → ℤ) (deltaX deltaY : ℝ) :
    ℕ → ℝ → ℝ → ℕ
  | 0, _, _ => 0
  | depth + 1, testX, testY =>
    if ⌊testX / 64⌋ < 0 ∨ 8 ≤ ⌊testX / 64⌋ ∨ ⌊testY / 64⌋ < 0 ∨ 8 ≤ ⌊testY / 64⌋
    then 1
    else if 0 < g (⌊testY / 64⌋ * 8 + ⌊testX / 64⌋) then 1
    else stepLoopCount g deltaX deltaY depth (testX + deltaX) (testY + deltaY) + 1

/-- The horizontal grid-line test (raycast.c lines 449-491): skipped for a
ray with no Y component, otherwise it starts at the first horizontal grid
line in the ray's Y direction and steps one cell row per iteration, with
the iteration cap MAPY = 8. -/
noncomputable def hTest (g : ℤ → ℤ) (px py rdx rdy : ℝ) : Option (ℝ × ℝ × ℤ) :=
  if rdy = 0 then none
  else
    stepLoop g
      ((if rdy < 0 then (-64 : ℝ) else 64) * (rdx / rdy))
      (if rdy < 0 then (-64 : ℝ) else 64)
      8
      (px + ((if rdy < 0 then (⌊py / 64⌋ : ℝ) * 64 - 1/100
              else (⌊py / 64⌋ : ℝ) * 64 + 64) - py) * (rdx / rdy))
      (if rdy < 0 then (⌊py / 64⌋ : ℝ) * 64 - 1/100 else (⌊py / 64⌋ : ℝ) * 64 + 64)

/-- The vertical grid-line test (raycast.c lines 494-536), symmetric to
the horizontal one, stepping one cell column per iteration with the
iteration cap MAPX = 8. -/
noncomputable def vTest (g : ℤ → ℤ) (px py rdx rdy : ℝ) : Option (ℝ × ℝ × ℤ) :=
  if rdx = 0 then none
  else
    stepLoop g
      (if rdx < 0 then (-64 : ℝ) else 64)
      ((if rdx < 0 then (-64 : ℝ) else 64) * (rdy / rdx))
      8
      (if rdx < 0 then (⌊px / 64⌋ : ℝ) * 64 - 1/100 else (⌊px / 64⌋ : ℝ) * 64 + 64)
      (py + ((if rdx < 0 then (⌊px / 64⌋ : ℝ) * 64 - 1/100
              else (⌊px / 64⌋ : ℝ) * 64 + 64) - px) * (rdy / rdx))

/-- Distance and hit data of one test (raycast.c lines 449-451, 478-484
and 494-496, 523-529): a miss keeps the 1000000 sentinel distance and
zeroed hit data, a hit records the hit point, its wall code and the
Euclidean distance from the player. -/
noncomputable def testResult (px py : ℝ) (res : Option (ℝ × ℝ × ℤ)) :
    ℝ × ℝ × ℝ × ℤ :=
  match res with
  | none => (1000000, 0, 0, 0)
  | some (hx, hy, w) =>
    (Real.sqrt ((hx - px) ^ 2 + (hy - py) ^ 2), hx, hy, w)

/-- One full ray of r_raycast up to the winner selection (raycast.c lines
443-565): run both grid-line tests and keep the closer candidate, ties to
the vertical one.  Returns (hitX, hitY, distance, hitVertical, wallType). -/
noncomputable def castRay (g : ℤ → ℤ) (px py rdx rdy : ℝ) :
    ℝ × ℝ × ℝ × Bool × ℤ :=
  selectHit (testResult px py (hTest g px py rdx rdy)).1
    (testResult px py (vTest g px py rdx rdy)).1
    (testResult px py (hTest g px py rdx rdy)).2.1
    (testResult px py (hTest g px py rdx rdy)).2.2.1
    (testResult px py (hTest g px py rdx rdy)).2.2.2
    (testResult px py (vTest g px py rdx rdy)).2.1
    (testResult px py (vTest g px py rdx rdy)).2.2.1
    (testResult px py (vTest g px py rdx rdy)).2.2.2

/-! ## Fisheye correction (raycast.c lines 127, 567-570) -/

/-- m_deg_to_rad (line 127) with the source constant PI = 3.14159265359. -/
noncomputable def m_deg_to_rad (a : ℝ) : ℝ := a * (314159265359 / 100000000000) / 180

/-- Line 568: corrected distance is the raw hit distance times the cosine
of the ray angle minus the camera angle. -/
noncomputable def correctedDistance (distance rangle pangle : ℝ) : ℝ :=
  distance * Real.cos (m_deg_to_rad (rangle - pangle))

/-- Lines 569-570: the value persisted into the wall-distance buffer at ray
index r, given the raw hit distance and angle of each ray and the camera
angle. -/
noncomputable def wallDistanceBuffer (rawDistance rayAngle : ℕ → ℝ)
    (cameraAngle : ℝ) (r : ℕ) : ℝ :=
  correctedDistance (rawDistance r) (rayAngle r) cameraAngle

end Raycast

namespace Raycast

/-! ## Theorems -/

/-- Claim C4: check_collision x y is true exactly when the cell obtained by
floor-dividing the coordinates by the cell size is outside the 8x8 grid, or
the wall grid holds a nonzero code there, or the sprite grid holds a
nonzero code strictly below the walkable threshold 8; it is a pure function
of its arguments. -/
theorem check_collision_spec (x y : ℚ) :
    check_collision x y = true ↔
      ((⌊x / 64⌋ < 0 ∨ 8 ≤ ⌊x / 64⌋ ∨ ⌊y / 64⌋ < 0 ∨ 8 ≤ ⌊y / 64⌋) ∨
        mapAt (⌊y / 64⌋ * 8 + ⌊x / 64⌋) ≠ 0 ∨
        (spriteAt (⌊y / 64⌋ * 8 + ⌊x / 64⌋) ≠ 0 ∧
          spriteAt (⌊y / 64⌋ * 8 + ⌊x / 64⌋) < 8)) := by
  have hm := mapAt_nonneg (⌊y / 64⌋ * 8 + ⌊x / 64⌋)
  have hs := spriteAt_nonneg (⌊y / 64⌋ * 8 + ⌊x / 64⌋)
  unfold check_collision
  dsimp only
  split_ifs with h1 h2 h3
  · simp only [true_iff]
    exact Or.inl h1
  · simp only [true_iff]
    exact Or.inr (Or.inl (by omega))
  · simp only [true_iff]
    exact Or.inr (Or.inr (by omega))
  · simp only [Bool.false_eq_true, false_iff]
    push_neg at h1 ⊢
    omega

/-- Claim C7: r_drawpoint is a silent no-op for any out-of-bounds
coordinate, and for in-bounds coordinates writes the color exactly at index
width*y + x, leaving every other cell unchanged. -/
theorem r_drawpoint_spec (x y color : ℤ) (pixels : ℤ → ℤ) :
    ((x < 0 ∨ 1024 ≤ x ∨ y < 0 ∨ 512 ≤ y) →
      ∀ i, r_drawpoint x y color pixels i = pixels i) ∧
    (0 ≤ x → x < 1024 → 0 ≤ y → y < 512 →
      r_drawpoint x y color pixels (1024 * y + x) = color ∧
      ∀ i, i ≠ 1024 * y + x → r_drawpoint x y color pixels i = pixels i) := by
  constructor
  · intro h i
    unfold r_drawpoint
    rw [if_pos h]
  · intro hx0 hx1 hy0 hy1
    have hob : ¬ (x < 0 ∨ 1024 ≤ x ∨ y < 0 ∨ 512 ≤ y) := by omega
    have hidx : ¬ (1024 * y + x < 0 ∨ 1024 * 512 ≤ 1024 * y + x) := by
      push_neg
      constructor <;> nlinarith
    constructor
    · unfold r_drawpoint
      rw [if_neg hob, if_neg hidx, Function.update_same]
    · intro i hi
      unfold r_drawpoint
      rw [if_neg hob, if_neg hidx, Function.update_noteq hi]

/-- Claim C7 witness at a concrete in-bounds and out-of-bounds input. -/
theorem r_drawpoint_spec_witness :
    r_drawpoint 5 7 99 (fun _ => 0) (1024 * 7 + 5) = 99 ∧
    r_drawpoint (-1) 7 99 (fun _ => 0) 0 = 0 :=
  ⟨((r_drawpoint_spec 5 7 99 (fun _ => 0)).2 (by decide) (by decide)
      (by decide) (by decide)).1,
    (r_drawpoint_spec (-1) 7 99 (fun _ => 0)).1 (Or.inl (by decide)) 0⟩

/-- Claim C10: memset replicates only the low byte 0xBB of 0xFFBBBBBB, so
after r_clearscreenbuffer every 32-bit pixel holds 0xBBBBBBBB, whose alpha
byte is 0xBB and not 0xFF. -/
theorem cleared_pixel_value :
    cleared_pixel = 0xBBBBBBBB ∧
    r_clearscreenbuffer_byte = 0xBB ∧
    cleared_pixel / 16777216 % 256 = 0xBB ∧
    cleared_pixel ≠ 0xFFBBBBBB := by
  refine ⟨by decide, by decide, by decide, by decide⟩

/-- Claim C1 counterexample: with the two candidate distances exactly equal
(both 100), r_raycast records the vertical candidate (hit point (4,5),
orientation flag true, material 6), not the horizontal one, refuting the
documented horizontal tie-break. -/
theorem selectHit_tie_cex :
    selectHit (100 : ℚ) 100 1 2 3 4 5 6 = (4, 5, 100, true, 6) ∧
    selectHit (100 : ℚ) 100 1 2 3 4 5 6 ≠ (1, 2, 100, false, 3) := by
  refine ⟨by norm_num [selectHit], by norm_num [selectHit]⟩

/-- Claim C1 (amended): the reported wall hit is the candidate with the
smaller Euclidean distance, and when the two distances are exactly equal
the tie resolves to the vertical hit: the recorded orientation flag, hit
point, material code and distance are the horizontal test's exactly when
its distance is strictly smaller, and the vertical test's whenever the
vertical distance is less than or equal to the horizontal one. -/
theorem selectHit_spec {α : Type} [LinearOrder α] (dH dV hxH hyH : α)
    (wH : ℤ) (hxV hyV : α) (wV : ℤ) :
    (dH < dV → selectHit dH dV hxH hyH wH hxV hyV wV = (hxH, hyH, dH, false, wH)) ∧
    (dV ≤ dH → selectHit dH dV hxH hyH wH hxV hyV wV = (hxV, hyV, dV, true, wV)) := by
  unfold selectHit
  constructor
  · intro h
    rw [if_pos h]
  · intro h
    rw [if_neg (not_lt.mpr h)]

/-- Claim C1 witness: the amended selection evaluated on concrete strict
and tied inputs. -/
theorem selectHit_spec_witness :
    selectHit (10 : ℚ) 20 1 2 3 4 5 6 = (1, 2, 10, false, 3) ∧
    selectHit (100 : ℚ) 100 1 2 3 4 5 6 = (4, 5, 100, true, 6) :=
  ⟨(selectHit_spec (10 : ℚ) 20 1 2 3 4 5 6).1 (by norm_num),
    (selectHit_spec (100 : ℚ) 100 1 2 3 4 5 6).2 le_rfl⟩

/-- Claim C2 counterexample: at corrected distance 960 a vertical-face wall
hit gets brightness factor 0.7 * 0.8 = 0.56, strictly below the configured
wall minimum brightness 0.7, refuting the claim that the factor never
drops below the surface's configured minimum for all wall hits. -/
theorem wallDarkening_vertical_cex :
    wallDarkening 960 true = 14/25 ∧ wallDarkening 960 true < 7/10 := by
  refine ⟨by norm_num [wallDarkening, wallClamped], by norm_num [wallDarkening, wallClamped]⟩

/-- Claim C2 (amended): for each fixed surface kind the brightness factor
is non-increasing in the shading distance; for horizontal wall hits, floor,
ceiling and sprites it never drops below that surface's configured minimum
brightness; vertical-face wall hits multiply the already clamped wall
factor by the fixed 0.8 darkening, so their factor is bounded below by
0.8 times the wall minimum (0.56) instead of the wall minimum itself. -/
theorem shading_monotone_bounded :
    (∀ v : Bool, ∀ d1 d2 : ℚ, d1 ≤ d2 → wallDarkening d2 v ≤ wallDarkening d1 v) ∧
    (∀ d1 d2 : ℚ, d1 ≤ d2 → floorDarkening d2 ≤ floorDarkening d1) ∧
    (∀ d1 d2 : ℚ, d1 ≤ d2 → ceilingDarkening d2 ≤ ceilingDarkening d1) ∧
    (∀ d1 d2 : ℚ, d1 ≤ d2 → spriteDarkening d2 ≤ spriteDarkening d1) ∧
    (∀ d : ℚ, 7/10 ≤ wallDarkening d false) ∧
    (∀ d : ℚ, 14/25 ≤ wallDarkening d true) ∧
    (∀ d : ℚ, 13/20 ≤ floorDarkening d) ∧
    (∀ d : ℚ, 13/20 ≤ ceilingDarkening d) ∧
    (∀ d : ℚ, 7/10 ≤ spriteDarkening d) := by
  have hwc : ∀ d1 d2 : ℚ, d1 ≤ d2 → wallClamped d2 ≤ wallClamped d1 := by
    intro d1 d2 h
    unfold wallClamped
    split_ifs <;> linarith
  have hwb : ∀ d : ℚ, 7/10 ≤ wallClamped d := by
    intro d
    unfold wallClamped
    split_ifs <;> linarith
  refine ⟨?_, ?_, ?_, ?_, ?_, ?_, ?_, ?_, ?_⟩
  · intro v d1 d2 h
    unfold wallDarkening
    cases v
    · rw [if_neg Bool.false_ne_true, if_neg Bool.false_ne_true]
      exact hwc d1 d2 h
    · rw [if_pos rfl, if_pos rfl]
      have := hwc d1 d2 h
      linarith
  · intro d1 d2 h
    unfold floorDarkening
    split_ifs <;> linarith
  · intro d1 d2 h
    unfold ceilingDarkening
    split_ifs <;> nlinarith
  · intro d1 d2 h
    unfold spriteDarkening
    split_ifs <;> linarith
  · intro d
    unfold wallDarkening
    rw [if_neg Bool.false_ne_true]
    exact hwb d
  · intro d
    unfold wallDarkening
    rw [if_pos rfl]
    have := hwb d
    linarith
  · intro d
    unfold floorDarkening
    split_ifs <;> linarith
  · intro d
    unfold ceilingDarkening
    split_ifs <;> linarith
  · intro d
    unfold spriteDarkening
    split_ifs <;> linarith

/-- Claim C2 witness: monotonicity and the bounds evaluated at concrete
distances. -/
theorem shading_monotone_bounded_witness :
    wallDarkening 200 false ≤ wallDarkening 100 false ∧
    13/20 ≤ floorDarkening 5000 ∧ 7/10 ≤ spriteDarkening 5000 :=
  ⟨shading_monotone_bounded.1 false 100 200 (by norm_num),
    shading_monotone_bounded.2.2.2.2.2.2.1 5000,
    shading_monotone_bounded.2.2.2.2.2.2.2.2 5000⟩

/-- Claim C3: the corrected distance persisted into the wall-distance
buffer at ray index r is the raw Euclidean distance times the cosine of
(ray angle - camera angle), and when the ray angle equals the camera angle
it equals the raw distance. -/
theorem wallDistanceBuffer_spec (rawDistance rayAngle : ℕ → ℝ)
    (cameraAngle : ℝ) (r : ℕ) :
    wallDistanceBuffer rawDistance rayAngle cameraAngle r =
      rawDistance r * Real.cos (m_deg_to_rad (rayAngle r - cameraAngle)) ∧
    (rayAngle r = cameraAngle →
      wallDistanceBuffer rawDistance rayAngle cameraAngle r = rawDistance r) := by
  constructor
  · rfl
  · intro h
    unfold wallDistanceBuffer correctedDistance
    rw [h, sub_self]
    have : m_deg_to_rad 0 = 0 := by
      unfold m_deg_to_rad
      ring
    rw [this, Real.cos_zero, mul_one]

/-- Claim C3 witness: a ray aligned with the camera keeps its raw
distance 5. -/
theorem wallDistanceBuffer_spec_witness :
    wallDistanceBuffer (fun _ => 5) (fun _ => 30) 30 0 = 5 :=
  (wallDistanceBuffer_spec (fun _ => 5) (fun _ => 30) 30 0).2 rfl

lemma innerPass_perm {α : Type} [LinearOrder α] (c : Sprite α)
    (l : List (Sprite α)) :
    ((innerPass c l).1 :: (innerPass c l).2).Perm (c :: l) := by
  induction l generalizing c with
  | nil => exact List.Perm.refl _
  | cons s rest ih =>
    unfold innerPass
    split_ifs with h
    · exact (List.Perm.swap c (innerPass s rest).1 (innerPass s rest).2).trans
        ((ih s).cons c)
    · exact (List.Perm.swap s (innerPass c rest).1 (innerPass c rest).2).trans
        (((ih c).cons s).trans (List.Perm.swap c s rest))

lemma innerPass_le {α : Type} [LinearOrder α] (c : Sprite α)
    (l : List (Sprite α)) :
    c.dist ≤ (innerPass c l).1.dist ∧
      ∀ s ∈ (innerPass c l).2, s.dist ≤ (innerPass c l).1.dist := by
  induction l generalizing c with
  | nil => exact ⟨le_rfl, by simp [innerPass]⟩
  | cons s rest ih =>
    unfold innerPass
    split_ifs with h
    · refine ⟨le_trans (le_of_lt h) (ih s).1, ?_⟩
      intro a ha
      rcases List.mem_cons.mp ha with rfl | ha'
      · exact le_trans (le_of_lt h) (ih s).1
      · exact (ih s).2 a ha'
    · refine ⟨(ih c).1, ?_⟩
      intro a ha
      rcases List.mem_cons.mp ha with rfl | ha'
      · exact le_trans (not_lt.mp h) (ih c).1
      · exact (ih c).2 a ha'

lemma sortSprites_nil {α : Type} [LinearOrder α] :
    sortSprites ([] : List (Sprite α)) = [] := by
  rw [sortSprites]

lemma sortSprites_perm_aux {α : Type} [LinearOrder α] :
    ∀ (n : ℕ) (l : List (Sprite α)), l.length ≤ n → (sortSprites l).Perm l := by
  intro n
  induction n with
  | zero =>
    intro l hl
    rw [List.eq_nil_of_length_eq_zero (Nat.le_zero.mp hl), sortSprites_nil]
  | succ n ih =>
    intro l hl
    match l with
    | [] => rw [sortSprites_nil]
    | s :: rest =>
      rw [sortSprites]
      have hlen : (innerPass s rest).2.length ≤ n := by
        rw [innerPass_length]
        simpa using hl
      exact ((ih _ hlen).cons _).trans (innerPass_perm s rest)

lemma sortSprites_sorted_aux {α : Type} [LinearOrder α] :
    ∀ (n : ℕ) (l : List (Sprite α)), l.length ≤ n →
      List.Sorted (fun a b : Sprite α => b.dist ≤ a.dist) (sortSprites l) := by
  intro n
  induction n with
  | zero =>
    intro l hl
    rw [List.eq_nil_of_length_eq_zero (Nat.le_zero.mp hl), sortSprites_nil]
    exact List.sorted_nil
  | succ n ih =>
    intro l hl
    match l with
    | [] => rw [sortSprites_nil]; exact List.sorted_nil
    | s :: rest =>
      rw [sortSprites, List.sorted_cons]
      have hlen : (innerPass s rest).2.length ≤ n := by
        rw [innerPass_length]
        simpa using hl
      refine ⟨?_, ih _ hlen⟩
      intro b hb
      exact (innerPass_le s rest).2 b
        ((sortSprites_perm_aux n _ hlen).mem_iff.mp hb)

/-- Claim C5: the sorted sprite list is a permutation of the instances
collected from the sprite placement grid and is ordered by non-increasing
distance to the camera; and for any three sprites at distances 10, 50 and
30 the resulting draw order is 50, 30, 10. -/
theorem sprite_sort_spec :
    (∀ px py : ℝ,
      (sortSprites (collectSprites px py)).Perm (collectSprites px py) ∧
      List.Sorted (fun a b : Sprite ℝ => b.dist ≤ a.dist)
        (sortSprites (collectSprites px py))) ∧
    (∀ s1 s2 s3 : Sprite ℚ, s1.dist = 10 → s2.dist = 50 → s3.dist = 30 →
      sortSprites [s1, s2, s3] = [s2, s3, s1]) := by
  constructor
  · intro px py
    exact ⟨sortSprites_perm_aux _ _ le_rfl, sortSprites_sorted_aux _ _ le_rfl⟩
  · intro s1 s2 s3 h1 h2 h3
    norm_num [sortSprites, innerPass, h1, h2, h3]

/-- Claim C5 witness: three concrete sprites at distances 10, 50, 30 are
drawn in the order 50, 30, 10. -/
theorem sprite_sort_spec_witness :
    sortSprites [(⟨0, 0, 10, 1⟩ : Sprite ℚ), ⟨0, 0, 50, 2⟩, ⟨0, 0, 30, 3⟩] =
      [⟨0, 0, 50, 2⟩, ⟨0, 0, 30, 3⟩, ⟨0, 0, 10, 1⟩] :=
  sprite_sort_spec.2 _ _ _ rfl rfl rfl

lemma floor_div64_eq {u : ℝ} {c : ℤ} (h1 : (64 * c : ℝ) < u)
    (h2 : u < 64 * c + 64) : ⌊u / 64⌋ = c := by
  rw [Int.floor_eq_iff]
  constructor
  · rw [le_div_iff (by norm_num : (0 : ℝ) < 64)]
    linarith
  · rw [div_lt_iff (by norm_num : (0 : ℝ) < 64)]
    push_cast
    linarith

lemma floor_div64_add (t : ℝ) : ⌊(t + 64) / 64⌋ = ⌊t / 64⌋ + 1 := by
  have h : (t + 64) / 64 = t / 64 + ((1 : ℤ) : ℝ) := by push_cast; ring
  rw [h, Int.floor_add_int]

lemma floor_div64_sub (t : ℝ) : ⌊(t - 64) / 64⌋ = ⌊t / 64⌋ - 1 := by
  have h : (t - 64) / 64 = t / 64 + ((-1 : ℤ) : ℝ) := by push_cast; ring
  rw [h, Int.floor_add_int]
  omega

lemma floor_div64_step (t d : ℝ) (h1 : -64 ≤ d) (h2 : d ≤ 64) :
    ⌊t / 64⌋ - 1 ≤ ⌊(t + d) / 64⌋ ∧ ⌊(t + d) / 64⌋ ≤ ⌊t / 64⌋ + 1 := by
  constructor
  · rw [← floor_div64_sub t]
    exact Int.floor_mono ((div_le_div_right (by norm_num : (0 : ℝ) < 64)).mpr
      (by linarith))
  · rw [← floor_div64_add t]
    exact Int.floor_mono ((div_le_div_right (by norm_num : (0 : ℝ) < 64)).mpr
      (by linarith))

lemma floor_nonneg_lb {u : ℝ} (h : 0 ≤ ⌊u / 64⌋) : 0 ≤ u := by
  have h1 : ((0 : ℤ) : ℝ) ≤ u / 64 := le_trans (by exact_mod_cast h) (Int.floor_le _)
  have h2 : (0 : ℝ) ≤ u / 64 := by exact_mod_cast h1
  linarith [(div_nonneg_iff.mp h2)]

lemma floor_le7_ub {u : ℝ} (h : ⌊u / 64⌋ ≤ 7) : u < 512 := by
  have h1 : u / 64 < 8 := by
    have := Int.lt_floor_add_one (u / 64)
    have h2 : ((⌊u / 64⌋ : ℝ) + 1) ≤ 8 := by exact_mod_cast by omega
    linarith
  rw [div_lt_iff (by norm_num : (0 : ℝ) < 64)] at h1
  linarith

lemma stepLoopCount_le (g : ℤ → ℤ) (dX dY : ℝ) :
    ∀ (fuel : ℕ) (tX tY : ℝ), stepLoopCount g dX dY fuel tX tY ≤ fuel := by
  intro fuel
  induction fuel with
  | zero =>
    intro tX tY
    rw [stepLoopCount]
  | succ n ih =>
    intro tX tY
    rw [stepLoopCount]
    split_ifs
    · omega
    · omega
    · have := ih (tX + dX) (tY + dY)
      omega

lemma stepLoop_some (g : ℤ → ℤ) (dX dY : ℝ) :
    ∀ (fuel : ℕ) (tX tY hx hy : ℝ) (w : ℤ),
      stepLoop g dX dY fuel tX tY = some (hx, hy, w) →
      0 ≤ ⌊hx / 64⌋ ∧ ⌊hx / 64⌋ ≤ 7 ∧ 0 ≤ ⌊hy / 64⌋ ∧ ⌊hy / 64⌋ ≤ 7 ∧
        w = g (⌊hy / 64⌋ * 8 + ⌊hx / 64⌋) ∧ 0 < w := by
  intro fuel
  induction fuel with
  | zero =>
    intro tX tY hx hy w h
    rw [stepLoop] at h
    exact absurd h (by simp)
  | succ n ih =>
    intro tX tY hx hy w h
    rw [stepLoop] at h
    by_cases h1 : ⌊tX / 64⌋ < 0 ∨ 8 ≤ ⌊tX / 64⌋ ∨ ⌊tY / 64⌋ < 0 ∨ 8 ≤ ⌊tY / 64⌋
    · rw [if_pos h1] at h
      exact absurd h (by simp)
    · rw [if_neg h1] at h
      by_cases h2 : 0 < g (⌊tY / 64⌋ * 8 + ⌊tX / 64⌋)
      · rw [if_pos h2] at h
        push_neg at h1
        simp only [Option.some.injEq, Prod.mk.injEq] at h
        obtain ⟨rfl, rfl, rfl⟩ := h
        exact ⟨by omega, by omega, by omega, by omega, rfl, h2⟩
      · rw [if_neg h2] at h
        exact ih _ _ _ _ _ h

lemma stepLoop_hit (g : ℤ → ℤ) (dX dY tX tY : ℝ) (fuel : ℕ)
    (h1 : 0 ≤ ⌊tX / 64⌋) (h2 : ⌊tX / 64⌋ ≤ 7)
    (h3 : 0 ≤ ⌊tY / 64⌋) (h4 : ⌊tY / 64⌋ ≤ 7)
    (h5 : 0 < g (⌊tY / 64⌋ * 8 + ⌊tX / 64⌋)) :
    stepLoop g dX dY (fuel + 1) tX tY =
      some (tX, tY, g (⌊tY / 64⌋ * 8 + ⌊tX / 64⌋)) := by
  rw [stepLoop, if_neg (by omega), if_pos h5]

lemma walkDown (g : ℤ → ℤ)
    (hbdry : ∀ i j : ℤ, 0 ≤ i → i ≤ 7 → 0 ≤ j → j ≤ 7 →
      (i = 0 ∨ i = 7 ∨ j = 0 ∨ j = 7) → 0 < g (j * 8 + i))
    (dX : ℝ) (hd1 : -64 ≤ dX) (hd2 : dX ≤ 64) :
    ∀ (fuel : ℕ) (tX tY : ℝ),
      0 ≤ ⌊tX / 64⌋ → ⌊tX / 64⌋ ≤ 7 → 0 ≤ ⌊tY / 64⌋ → ⌊tY / 64⌋ ≤ 7 →
      8 ≤ (fuel : ℤ) + ⌊tY / 64⌋ →
      ∃ p, stepLoop g dX 64 fuel tX tY = some p := by
  intro fuel
  induction fuel with
  | zero =>
    intro tX tY h1 h2 h3 h4 hf
    exfalso
    push_cast at hf
    omega
  | succ n ih =>
    intro tX tY h1 h2 h3 h4 hf
    rw [stepLoop, if_neg (by omega)]
    by_cases hw : 0 < g (⌊tY / 64⌋ * 8 + ⌊tX / 64⌋)
    · rw [if_pos hw]
      exact ⟨_, rfl⟩
    · rw [if_neg hw]
      have hint : ¬(⌊tX / 64⌋ = 0 ∨ ⌊tX / 64⌋ = 7 ∨ ⌊tY / 64⌋ = 0 ∨ ⌊tY / 64⌋ = 7) :=
        fun hor => hw (hbdry _ _ h1 h2 h3 h4 hor)
      push_neg at hint
      have hstep := floor_div64_step tX dX hd1 hd2
      have hy' : ⌊(tY + 64) / 64⌋ = ⌊tY / 64⌋ + 1 := floor_div64_add tY
      apply ih (tX + dX) (tY + 64) (by omega) (by omega)
        (by rw [hy']; omega) (by rw [hy']; omega)
      rw [hy']
      push_cast at hf ⊢
      omega

lemma walkUp (g : ℤ → ℤ)
    (hbdry : ∀ i j : ℤ, 0 ≤ i → i ≤ 7 → 0 ≤ j → j ≤ 7 →
      (i = 0 ∨ i = 7 ∨ j = 0 ∨ j = 7) → 0 < g (j * 8 + i))
    (dX : ℝ) (hd1 : -64 ≤ dX) (hd2 : dX ≤ 64) :
    ∀ (fuel : ℕ) (tX tY : ℝ),
      0 ≤ ⌊tX / 64⌋ → ⌊tX / 64⌋ ≤ 7 → 0 ≤ ⌊tY / 64⌋ → ⌊tY / 64⌋ ≤ 7 →
      ⌊tY / 64⌋ < (fuel : ℤ) →
      ∃ p, stepLoop g dX (-64) fuel tX tY = some p := by
  intro fuel
  induction fuel with
  | zero =>
    intro tX tY h1 h2 h3 h4 hf
    exfalso
    push_cast at hf
    omega
  | succ n ih =>
    intro tX tY h1 h2 h3 h4 hf
    rw [stepLoop, if_neg (by omega)]
    by_cases hw : 0 < g (⌊tY / 64⌋ * 8 + ⌊tX / 64⌋)
    · rw [if_pos hw]
      exact ⟨_, rfl⟩
    · rw [if_neg hw]
      have hint : ¬(⌊tX / 64⌋ = 0 ∨ ⌊tX / 64⌋ = 7 ∨ ⌊tY / 64⌋ = 0 ∨ ⌊tY / 64⌋ = 7) :=
        fun hor => hw (hbdry _ _ h1 h2 h3 h4 hor)
      push_neg at hint
      have hstep := floor_div64_step tX dX hd1 hd2
      have hy' : ⌊(tY + -64) / 64⌋ = ⌊tY / 64⌋ - 1 := by
        rw [show tY + (-64 : ℝ) = tY - 64 from by ring]
        exact floor_div64_sub tY
      apply ih (tX + dX) (tY + -64) (by omega) (by omega)
        (by rw [hy']; omega) (by rw [hy']; omega)
      rw [hy']
      push_cast at hf ⊢
      omega

lemma walkRight (g : ℤ → ℤ)
    (hbdry : ∀ i j : ℤ, 0 ≤ i → i ≤ 7 → 0 ≤ j → j ≤ 7 →
      (i = 0 ∨ i = 7 ∨ j = 0 ∨ j = 7) → 0 < g (j * 8 + i))
    (dY : ℝ) (hd1 : -64 ≤ dY) (hd2 : dY ≤ 64) :
    ∀ (fuel : ℕ) (tX tY : ℝ),
      0 ≤ ⌊tX / 64⌋ → ⌊tX / 64⌋ ≤ 7 → 0 ≤ ⌊tY / 64⌋ → ⌊tY / 64⌋ ≤ 7 →
      8 ≤ (fuel : ℤ) + ⌊tX / 64⌋ →
      ∃ p, stepLoop g 64 dY fuel tX tY = some p := by
  intro fuel
  induction fuel with
  | zero =>
    intro tX tY h1 h2 h3 h4 hf
    exfalso
    push_cast at hf
    omega
  | succ n ih =>
    intro tX tY h1 h2 h3 h4 hf
    rw [stepLoop, if_neg (by omega)]
    by_cases hw : 0 < g (⌊tY / 64⌋ * 8 + ⌊tX / 64⌋)
    · rw [if_pos hw]
      exact ⟨_, rfl⟩
    · rw [if_neg hw]
      have hint : ¬(⌊tX / 64⌋ = 0 ∨ ⌊tX / 64⌋ = 7 ∨ ⌊tY / 64⌋ = 0 ∨ ⌊tY / 64⌋ = 7) :=
        fun hor => hw (hbdry _ _ h1 h2 h3 h4 hor)
      push_neg at hint
      have hstep := floor_div64_step tY dY hd1 hd2
      have hx' : ⌊(tX + 64) / 64⌋ = ⌊tX / 64⌋ + 1 := floor_div64_add tX
      apply ih (tX + 64) (tY + dY) (by rw [hx']; omega) (by rw [hx']; omega)
        (by omega) (by omega)
      rw [hx']
      push_cast at hf ⊢
      omega

lemma walkLeft (g : ℤ → ℤ)
    (hbdry : ∀ i j : ℤ, 0 ≤ i → i ≤ 7 → 0 ≤ j → j ≤ 7 →
      (i = 0 ∨ i = 7 ∨ j = 0 ∨ j = 7) → 0 < g (j * 8 + i))
    (dY : ℝ) (hd1 : -64 ≤ dY) (hd2 : dY ≤ 64) :
    ∀ (fuel : ℕ) (tX tY : ℝ),
      0 ≤ ⌊tX / 64⌋ → ⌊tX / 64⌋ ≤ 7 → 0 ≤ ⌊tY / 64⌋ → ⌊tY / 64⌋ ≤ 7 →
      ⌊tX / 64⌋ < (fuel : ℤ) →
      ∃ p, stepLoop g (-64) dY fuel tX tY = some p := by
  intro fuel
  induction fuel with
  | zero =>
    intro tX tY h1 h2 h3 h4 hf
    exfalso
    push_cast at hf
    omega
  | succ n ih =>
    intro tX tY h1 h2 h3 h4 hf
    rw [stepLoop, if_neg (by omega)]
    by_cases hw : 0 < g (⌊tY / 64⌋ * 8 + ⌊tX / 64⌋)
    · rw [if_pos hw]
      exact ⟨_, rfl⟩
    · rw [if_neg hw]
      have hint : ¬(⌊tX / 64⌋ = 0 ∨ ⌊tX / 64⌋ = 7 ∨ ⌊tY / 64⌋ = 0 ∨ ⌊tY / 64⌋ = 7) :=
        fun hor => hw (hbdry _ _ h1 h2 h3 h4 hor)
      push_neg at hint
      have hstep := floor_div64_step tY dY hd1 hd2
      have hx' : ⌊(tX + -64) / 64⌋ = ⌊tX / 64⌋ - 1 := by
        rw [show tX + (-64 : ℝ) = tX - 64 from by ring]
        exact floor_div64_sub tX
      apply ih (tX + -64) (tY + dY) (by rw [hx']; omega) (by rw [hx']; omega)
        (by omega) (by omega)
      rw [hx']
      push_cast at hf ⊢
      omega

lemma div_bounds_pos {a b : ℝ} (hb : 0 < b) (h1 : -b ≤ a) (h2 : a ≤ b) :
    -1 ≤ a / b ∧ a / b ≤ 1 := by
  constructor
  · rw [le_div_iff hb]
    linarith
  · rw [div_le_one hb]
    exact h2

lemma div_bounds_neg {a b : ℝ} (hb : b < 0) (h1 : b ≤ a) (h2 : a ≤ -b) :
    -1 ≤ a / b ∧ a / b ≤ 1 := by
  have hbne : b ≠ 0 := ne_of_lt hb
  have hq : a / b * b = a := div_mul_cancel₀ a hbne
  constructor
  · by_contra hq'
    push_neg at hq'
    have h3 := mul_lt_mul_of_neg_right hq' hb
    rw [hq] at h3
    linarith
  · by_contra hq'
    push_neg at hq'
    have h3 := mul_lt_mul_of_neg_right hq' hb
    rw [hq] at h3
    linarith

lemma hTest_down (g : ℤ → ℤ)
    (hbdry : ∀ i j : ℤ, 0 ≤ i → i ≤ 7 → 0 ≤ j → j ≤ 7 →
      (i = 0 ∨ i = 7 ∨ j = 0 ∨ j = 7) → 0 < g (j * 8 + i))
    (px py rdx rdy : ℝ) (cx cy : ℤ)
    (hcx1 : 1 ≤ cx) (hcx2 : cx ≤ 6) (hcy1 : 1 ≤ cy) (hcy2 : cy ≤ 6)
    (hpx1 : (64 * cx : ℝ) < px) (hpx2 : px < 64 * cx + 64)
    (hpy1 : (64 * cy : ℝ) < py) (hpy2 : py < 64 * cy + 64)
    (hrdy : 0 < rdy) (hs1 : -rdy ≤ rdx) (hs2 : rdx ≤ rdy) :
    ∃ p, hTest g px py rdx rdy = some p := by
  have hfpy : ⌊py / 64⌋ = cy := floor_div64_eq hpy1 hpy2
  have hq := div_bounds_pos hrdy hs1 hs2
  unfold hTest
  rw [if_neg (ne_of_gt hrdy)]
  simp only [if_neg (not_lt.mpr hrdy.le)]
  rw [hfpy]
  have hfy1 : ⌊((cy : ℝ) * 64 + 64) / 64⌋ = cy + 1 := by
    have e : ((cy : ℝ) * 64 + 64) / 64 = ((cy + 1 : ℤ) : ℝ) := by
      push_cast
      field_simp
      ring
    rw [e, Int.floor_intCast]
  have hg1 : (0 : ℝ) < (cy : ℝ) * 64 + 64 - py := by linarith
  have hg2 : (cy : ℝ) * 64 + 64 - py < 64 := by linarith
  have ho1 : -(64 : ℝ) ≤ ((cy : ℝ) * 64 + 64 - py) * (rdx / rdy) := by
    nlinarith [hq.1, hq.2]
  have ho2 : ((cy : ℝ) * 64 + 64 - py) * (rdx / rdy) ≤ 64 := by
    nlinarith [hq.1, hq.2]
  have hmx1 : cx - 1 ≤ ⌊(px + ((cy : ℝ) * 64 + 64 - py) * (rdx / rdy)) / 64⌋ := by
    apply Int.le_floor.mpr
    rw [le_div_iff (by norm_num : (0 : ℝ) < 64)]
    push_cast
    linarith
  have hmx2 : ⌊(px + ((cy : ℝ) * 64 + 64 - py) * (rdx / rdy)) / 64⌋ ≤ cx + 1 := by
    have : ⌊(px + ((cy : ℝ) * 64 + 64 - py) * (rdx / rdy)) / 64⌋ < cx + 2 := by
      apply Int.floor_lt.mpr
      rw [div_lt_iff (by norm_num : (0 : ℝ) < 64)]
      push_cast
      linarith
    omega
  apply walkDown g hbdry (64 * (rdx / rdy)) (by nlinarith [hq.1]) (by nlinarith [hq.2])
    8 _ _ (by omega) (by omega) (by rw [hfy1]; omega) (by rw [hfy1]; omega)
  rw [hfy1]
  push_cast
  omega

lemma vTest_right (g : ℤ → ℤ)
    (hbdry : ∀ i j : ℤ, 0 ≤ i → i ≤ 7 → 0 ≤ j → j ≤ 7 →
      (i = 0 ∨ i = 7 ∨ j = 0 ∨ j = 7) → 0 < g (j * 8 + i))
    (px py rdx rdy : ℝ) (cx cy : ℤ)
    (hcx1 : 1 ≤ cx) (hcx2 : cx ≤ 6) (hcy1 : 1 ≤ cy) (hcy2 : cy ≤ 6)
    (hpx1 : (64 * cx : ℝ) < px) (hpx2 : px < 64 * cx + 64)
    (hpy1 : (64 * cy : ℝ) < py) (hpy2 : py < 64 * cy + 64)
    (hrdx : 0 < rdx) (hs1 : -rdx ≤ rdy) (hs2 : rdy ≤ rdx) :
    ∃ p, vTest g px py rdx rdy = some p := by
  have hfpx : ⌊px / 64⌋ = cx := floor_div64_eq hpx1 hpx2
  have hq := div_bounds_pos hrdx hs1 hs2
  unfold vTest
  rw [if_neg (ne_of_gt hrdx)]
  simp only [if_neg (not_lt.mpr hrdx.le)]
  rw [hfpx]
  have hfx1 : ⌊((cx : ℝ) * 64 + 64) / 64⌋ = cx + 1 := by
    have e : ((cx : ℝ) * 64 + 64) / 64 = ((cx + 1 : ℤ) : ℝ) := by
      push_cast
      field_simp
      ring
    rw [e, Int.floor_intCast]
  have hg1 : (0 : ℝ) < (cx : ℝ) * 64 + 64 - px := by linarith
  have hg2 : (cx : ℝ) * 64 + 64 - px < 64 := by linarith
  have ho1 : -(64 : ℝ) ≤ ((cx : ℝ) * 64 + 64 - px) * (rdy / rdx) := by
    nlinarith [hq.1, hq.2]
  have ho2 : ((cx : ℝ) * 64 + 64 - px) * (rdy / rdx) ≤ 64 := by
    nlinarith [hq.1, hq.2]
  have hmy1 : cy - 1 ≤ ⌊(py + ((cx : ℝ) * 64 + 64 - px) * (rdy / rdx)) / 64⌋ := by
    apply Int.le_floor.mpr
    rw [le_div_iff (by norm_num : (0 : ℝ) < 64)]
    push_cast
    linarith
  have hmy2 : ⌊(py + ((cx : ℝ) * 64 + 64 - px) * (rdy / rdx)) / 64⌋ ≤ cy + 1 := by
    have : ⌊(py + ((cx : ℝ) * 64 + 64 - px) * (rdy / rdx)) / 64⌋ < cy + 2 := by
      apply Int.floor_lt.mpr
      rw [div_lt_iff (by norm_num : (0 : ℝ) < 64)]
      push_cast
      linarith
    omega
  apply walkRight g hbdry (64 * (rdy / rdx)) (by nlinarith [hq.1]) (by nlinarith [hq.2])
    8 _ _ (by rw [hfx1]; omega) (by rw [hfx1]; omega) (by omega) (by omega)
  rw [hfx1]
  push_cast
  omega

lemma floor_le_neg_one {u : ℝ} (h : ⌊u / 64⌋ < 0) : u < 0 := by
  have h1 := Int.lt_floor_add_one (u / 64)
  have h2 : ((⌊u / 64⌋ : ℝ) + 1) ≤ 0 := by
    have h3 : ⌊u / 64⌋ ≤ -1 := by omega
    have h4 : (⌊u / 64⌋ : ℝ) ≤ ((-1 : ℤ) : ℝ) := by exact_mod_cast h3
    push_cast at h4
    linarith
  have h3 : u / 64 < 0 := lt_of_lt_of_le h1 h2
  by_contra hc
  push_neg at hc
  have : (0 : ℝ) ≤ u / 64 := div_nonneg hc (by norm_num)
  linarith

lemma floor_ge8 {u : ℝ} (h : 8 ≤ ⌊u / 64⌋) : 512 ≤ u := by
  have h1 : ((8 : ℤ) : ℝ) ≤ u / 64 := le_trans (by exact_mod_cast h) (Int.floor_le _)
  rw [le_div_iff (by norm_num : (0 : ℝ) < 64)] at h1
  norm_num at h1
  linarith

set_option maxHeartbeats 1600000 in
lemma hTest_up (g : ℤ → ℤ)
    (hbdry : ∀ i j : ℤ, 0 ≤ i → i ≤ 7 → 0 ≤ j → j ≤ 7 →
      (i = 0 ∨ i = 7 ∨ j = 0 ∨ j = 7) → 0 < g (j * 8 + i))
    (px py rdx rdy : ℝ) (cx cy : ℤ)
    (hcx1 : 1 ≤ cx) (hcx2 : cx ≤ 6) (hcy1 : 1 ≤ cy) (hcy2 : cy ≤ 6)
    (hpx1 : (64 * cx : ℝ) < px) (hpx2 : px < 64 * cx + 64)
    (hpy1 : (64 * cy : ℝ) < py) (hpy2 : py < 64 * cy + 64)
    (hrdy : rdy < 0) (hs1 : rdx ≤ -rdy) (hs2 : rdy ≤ rdx) :
    (∃ p, hTest g px py rdx rdy = some p) ∨
      (∃ p, vTest g px py rdx rdy = some p) := by
  have hfpy : ⌊py / 64⌋ = cy := floor_div64_eq hpy1 hpy2
  have hfpx : ⌊px / 64⌋ = cx := floor_div64_eq hpx1 hpx2
  have hq := div_bounds_neg hrdy hs2 hs1
  have hrdyne : rdy ≠ 0 := ne_of_lt hrdy
  have hcxR1 : (1 : ℝ) ≤ (cx : ℝ) := by exact_mod_cast hcx1
  have hcxR6 : (cx : ℝ) ≤ 6 := by exact_mod_cast hcx2
  have hcyR1 : (1 : ℝ) ≤ (cy : ℝ) := by exact_mod_cast hcy1
  have hcyR6 : (cy : ℝ) ≤ 6 := by exact_mod_cast hcy2
  have hfy0 : ⌊((cy : ℝ) * 64 - 1/100) / 64⌋ = cy - 1 := by
    apply floor_div64_eq
    · push_cast
      linarith
    · push_cast
      linarith
  rcases lt_or_ge ⌊(px + ((cy : ℝ) * 64 - 1/100 - py) * (rdx / rdy)) / 64⌋ 0
    with hA | h0
  · -- the first test point falls left of the grid: px is within a hundredth
    -- of the left edge of column 1 and the ray is near-diagonal up-left,
    -- so the vertical test hits the left boundary column at its first
    -- crossing
    have htx0neg : px + ((cy : ℝ) * 64 - 1/100 - py) * (rdx / rdy) < 0 :=
      floor_le_neg_one hA
    have hq0 : 0 < rdx / rdy := by
      by_contra hq0'
      push_neg at hq0'
      have h1 := mul_nonneg
        (show (0 : ℝ) ≤ -((cy : ℝ) * 64 - 1/100 - py) from by linarith)
        (show (0 : ℝ) ≤ -(rdx / rdy) from by linarith)
      rw [neg_mul_neg] at h1
      linarith
    have hDq : 64 < (py - ((cy : ℝ) * 64 - 1/100)) * (rdx / rdy) := by
      have hexp : (py - ((cy : ℝ) * 64 - 1/100)) * (rdx / rdy) =
          -(((cy : ℝ) * 64 - 1/100 - py) * (rdx / rdy)) := by ring
      rw [hexp]
      linarith
    have hD0 : (0 : ℝ) < py - ((cy : ℝ) * 64 - 1/100) := by linarith
    have hDq' : (py - ((cy : ℝ) * 64 - 1/100)) * (rdx / rdy) ≤
        py - ((cy : ℝ) * 64 - 1/100) :=
      mul_le_of_le_one_right hD0.le hq.2
    have hD64 : 64 < py - ((cy : ℝ) * 64 - 1/100) := by linarith
    have hpxDq : px < (py - ((cy : ℝ) * 64 - 1/100)) * (rdx / rdy) := by
      have hexp : (py - ((cy : ℝ) * 64 - 1/100)) * (rdx / rdy) =
          -(((cy : ℝ) * 64 - 1/100 - py) * (rdx / rdy)) := by ring
      rw [hexp]
      linarith
    have hpxu : px < 64 + 1/100 := by linarith
    have hcxeq : cx = 1 := by
      by_contra hne
      have h2 : (2 : ℝ) ≤ (cx : ℝ) := by exact_mod_cast (by omega : 2 ≤ cx)
      linarith
    have hrdxneg : rdx < 0 := by
      have hrdxq : rdx / rdy * rdy = rdx := div_mul_cancel₀ rdx hrdyne
      have h1 := mul_pos hq0 (show (0 : ℝ) < -rdy from by linarith)
      rw [mul_neg, hrdxq] at h1
      linarith
    have hrdxne : rdx ≠ 0 := ne_of_lt hrdxneg
    have ht0 : 0 < rdy / rdx := by
      rw [show rdy / rdx = -rdy / -rdx from (neg_div_neg_eq rdy rdx).symm]
      exact div_pos (by linarith) (by linarith)
    have htu : (rdy / rdx) * 64 < py - ((cy : ℝ) * 64 - 1/100) := by
      by_contra hcon
      push_neg at hcon
      have h1 : (py - ((cy : ℝ) * 64 - 1/100)) * (rdx / rdy) ≤
          (rdy / rdx) * 64 * (rdx / rdy) :=
        mul_le_mul_of_nonneg_right hcon hq0.le
      have h2 : (rdy / rdx) * 64 * (rdx / rdy) = 64 := by
        field_simp
      linarith
    have ht2 : rdy / rdx < 102/100 := by linarith
    have hE1 : 1/100 < px - ((cx : ℝ) * 64 - 1/100) := by linarith
    have hE2 : px - ((cx : ℝ) * 64 - 1/100) < 2/100 := by
      have hcxr : (cx : ℝ) = 1 := by exact_mod_cast hcxeq
      linarith
    right
    unfold vTest
    rw [if_neg hrdxne]
    simp only [if_pos hrdxneg]
    rw [hfpx]
    have hfx0 : ⌊((cx : ℝ) * 64 - 1/100) / 64⌋ = cx - 1 := by
      apply floor_div64_eq
      · push_cast
        linarith
      · push_cast
        linarith
    have hFp : (px - ((cx : ℝ) * 64 - 1/100)) * (rdy / rdx) <
        (2/100) * (102/100) :=
      mul_lt_mul'' hE2 ht2 (by linarith) ht0.le
    have hF : -(3/100) < ((cx : ℝ) * 64 - 1/100 - px) * (rdy / rdx) := by
      have hexp : ((cx : ℝ) * 64 - 1/100 - px) * (rdy / rdx) =
          -((px - ((cx : ℝ) * 64 - 1/100)) * (rdy / rdx)) := by ring
      rw [hexp]
      linarith
    have htyV : ⌊(py + ((cx : ℝ) * 64 - 1/100 - px) * (rdy / rdx)) / 64⌋ = cy := by
      apply floor_div64_eq
      · linarith
      · have hFneg : ((cx : ℝ) * 64 - 1/100 - px) * (rdy / rdx) < 0 :=
          mul_neg_of_neg_of_pos (by linarith) ht0
        linarith
    have hcell : 0 < g (⌊(py + ((cx : ℝ) * 64 - 1/100 - px) * (rdy / rdx)) / 64⌋
        * 8 + ⌊((cx : ℝ) * 64 - 1/100) / 64⌋) := by
      rw [htyV, hfx0, hcxeq]
      simpa using hbdry 0 cy le_rfl (by omega) (by omega) (by omega) (Or.inl rfl)
    exact ⟨_, stepLoop_hit g (-64) (-64 * (rdy / rdx)) ((cx : ℝ) * 64 - 1/100)
      (py + ((cx : ℝ) * 64 - 1/100 - px) * (rdy / rdx)) 7
      (by rw [hfx0]; omega) (by rw [hfx0]; omega)
      (by rw [htyV]; omega) (by rw [htyV]; omega) hcell⟩
  · rcases le_or_lt ⌊(px + ((cy : ℝ) * 64 - 1/100 - py) * (rdx / rdy)) / 64⌋ 7
      with h7 | hB
    · -- the first test point is inside the grid: the horizontal walk
      -- reaches the boundary row
      left
      unfold hTest
      rw [if_neg hrdyne]
      simp only [if_pos hrdy]
      rw [hfpy]
      apply walkUp g hbdry (-64 * (rdx / rdy)) (by linarith [hq.2])
        (by linarith [hq.1]) 8 _ _ h0 h7
        (by rw [hfy0]; omega) (by rw [hfy0]; omega)
      rw [hfy0]
      push_cast
      omega
    · -- the first test point falls right of the grid: px is within a
      -- hundredth of the right edge of column 6 and the ray is
      -- near-diagonal up-right, so the vertical test hits the right
      -- boundary column at its first crossing
      have htx0ge : 512 ≤ px + ((cy : ℝ) * 64 - 1/100 - py) * (rdx / rdy) :=
        floor_ge8 (by omega)
      have hq0 : rdx / rdy < 0 := by
        by_contra hq0'
        push_neg at hq0'
        have h1 := mul_nonneg
          (show (0 : ℝ) ≤ -((cy : ℝ) * 64 - 1/100 - py) from by linarith) hq0'
        rw [neg_mul] at h1
        linarith
      have hDq : 64 < (py - ((cy : ℝ) * 64 - 1/100)) * (-(rdx / rdy)) := by
        have hexp : (py - ((cy : ℝ) * 64 - 1/100)) * (-(rdx / rdy)) =
            ((cy : ℝ) * 64 - 1/100 - py) * (rdx / rdy) := by ring
        rw [hexp]
        linarith
      have hD0 : (0 : ℝ) < py - ((cy : ℝ) * 64 - 1/100) := by linarith
      have hDq' : (py - ((cy : ℝ) * 64 - 1/100)) * (-(rdx / rdy)) ≤
          py - ((cy : ℝ) * 64 - 1/100) :=
        mul_le_of_le_one_right hD0.le (by linarith [hq.1])
      have hD64 : 64 < py - ((cy : ℝ) * 64 - 1/100) := by linarith
      have hpxDq : 512 - (py - ((cy : ℝ) * 64 - 1/100)) * (-(rdx / rdy)) ≤ px := by
        have hexp : (py - ((cy : ℝ) * 64 - 1/100)) * (-(rdx / rdy)) =
            ((cy : ℝ) * 64 - 1/100 - py) * (rdx / rdy) := by ring
        rw [hexp]
        linarith
      have hpxl : 448 - 1/100 < px := by linarith
      have hcxeq : cx = 6 := by
        by_contra hne
        have h2 : (cx : ℝ) ≤ 5 := by exact_mod_cast (by omega : cx ≤ 5)
        linarith
      have hrdxpos : 0 < rdx := by
        have hrdxq : rdx / rdy * rdy = rdx := div_mul_cancel₀ rdx hrdyne
        have h1 := mul_pos (show (0 : ℝ) < -(rdx / rdy) from by linarith)
          (show (0 : ℝ) < -rdy from by linarith)
        rw [neg_mul_neg, hrdxq] at h1
        exact h1
      have hrdxne : rdx ≠ 0 := ne_of_gt hrdxpos
      have ht0 : rdy / rdx < 0 := div_neg_of_neg_of_pos hrdy hrdxpos
      have htu : (-(rdy / rdx)) * 64 < py - ((cy : ℝ) * 64 - 1/100) := by
        by_contra hcon
        push_neg at hcon
        have h1 : (py - ((cy : ℝ) * 64 - 1/100)) * (-(rdx / rdy)) ≤
            (-(rdy / rdx)) * 64 * (-(rdx / rdy)) :=
          mul_le_mul_of_nonneg_right hcon (by linarith)
        have h2 : (-(rdy / rdx)) * 64 * (-(rdx / rdy)) = 64 := by
          field_simp
        linarith
      have ht2 : -(rdy / rdx) < 102/100 := by linarith
      have hE1 : 0 < (cx : ℝ) * 64 + 64 - px := by linarith
      have hE2 : (cx : ℝ) * 64 + 64 - px < 1/100 := by
        have hcxr : (cx : ℝ) = 6 := by exact_mod_cast hcxeq
        linarith
      right
      unfold vTest
      rw [if_neg hrdxne]
      simp only [if_neg (not_lt.mpr hrdxpos.le)]
      rw [hfpx]
      have hfx1 : ⌊((cx : ℝ) * 64 + 64) / 64⌋ = cx + 1 := by
        have e : ((cx : ℝ) * 64 + 64) / 64 = ((cx + 1 : ℤ) : ℝ) := by
          push_cast
          field_simp
          ring
        rw [e, Int.floor_intCast]
      have hFp : ((cx : ℝ) * 64 + 64 - px) * (-(rdy / rdx)) <
          (1/100) * (102/100) :=
        mul_lt_mul'' hE2 ht2 hE1.le (by linarith)
      have hF : -(2/100) < ((cx : ℝ) * 64 + 64 - px) * (rdy / rdx) := by
        have hexp : ((cx : ℝ) * 64 + 64 - px) * (rdy / rdx) =
            -(((cx : ℝ) * 64 + 64 - px) * (-(rdy / rdx))) := by ring
        rw [hexp]
        linarith
      have htyV : ⌊(py + ((cx : ℝ) * 64 + 64 - px) * (rdy / rdx)) / 64⌋ = cy := by
        apply floor_div64_eq
        · linarith
        · have hFneg : ((cx : ℝ) * 64 + 64 - px) * (rdy / rdx) < 0 :=
            mul_neg_of_pos_of_neg hE1 ht0
          linarith
      have hcell : 0 < g (⌊(py + ((cx : ℝ) * 64 + 64 - px) * (rdy / rdx)) / 64⌋
          * 8 + ⌊((cx : ℝ) * 64 + 64) / 64⌋) := by
        rw [htyV, hfx1, hcxeq]
        simpa using hbdry 7 cy (by omega) le_rfl (by omega) (by omega)
          (Or.inr (Or.inl rfl))
      exact ⟨_, stepLoop_hit g 64 (64 * (rdy / rdx)) ((cx : ℝ) * 64 + 64)
        (py + ((cx : ℝ) * 64 + 64 - px) * (rdy / rdx)) 7
        (by rw [hfx1]; omega) (by rw [hfx1]; omega)
        (by rw [htyV]; omega) (by rw [htyV]; omega) hcell⟩

set_option maxHeartbeats 1600000 in
lemma vTest_left (g : ℤ → ℤ)
    (hbdry : ∀ i j : ℤ, 0 ≤ i → i ≤ 7 → 0 ≤ j → j ≤ 7 →
      (i = 0 ∨ i = 7 ∨ j = 0 ∨ j = 7) → 0 < g (j * 8 + i))
    (px py rdx rdy : ℝ) (cx cy : ℤ)
    (hcx1 : 1 ≤ cx) (hcx2 : cx ≤ 6) (hcy1 : 1 ≤ cy) (hcy2 : cy ≤ 6)
    (hpx1 : (64 * cx : ℝ) < px) (hpx2 : px < 64 * cx + 64)
    (hpy1 : (64 * cy : ℝ) < py) (hpy2 : py < 64 * cy + 64)
    (hrdx : rdx < 0) (hs1 : rdy ≤ -rdx) (hs2 : rdx ≤ rdy) :
    (∃ p, vTest g px py rdx rdy = some p) ∨
      (∃ p, hTest g px py rdx rdy = some p) := by
  have hfpy : ⌊py / 64⌋ = cy := floor_div64_eq hpy1 hpy2
  have hfpx : ⌊px / 64⌋ = cx := floor_div64_eq hpx1 hpx2
  have hq := div_bounds_neg hrdx hs2 hs1
  have hrdxne : rdx ≠ 0 := ne_of_lt hrdx
  have hcxR1 : (1 : ℝ) ≤ (cx : ℝ) := by exact_mod_cast hcx1
  have hcxR6 : (cx : ℝ) ≤ 6 := by exact_mod_cast hcx2
  have hcyR1 : (1 : ℝ) ≤ (cy : ℝ) := by exact_mod_cast hcy1
  have hcyR6 : (cy : ℝ) ≤ 6 := by exact_mod_cast hcy2
  have hfx0 : ⌊((cx : ℝ) * 64 - 1/100) / 64⌋ = cx - 1 := by
    apply floor_div64_eq
    · push_cast
      linarith
    · push_cast
      linarith
  rcases lt_or_ge ⌊(py + ((cx : ℝ) * 64 - 1/100 - px) * (rdy / rdx)) / 64⌋ 0
    with hA | h0
  · -- the first test point falls above the grid: py is within a hundredth
    -- of the top edge of row 1 and the ray is near-diagonal up-left, so
    -- the horizontal test hits the top boundary row at its first crossing
    have hty0neg : py + ((cx : ℝ) * 64 - 1/100 - px) * (rdy / rdx) < 0 :=
      floor_le_neg_one hA
    have hq0 : 0 < rdy / rdx := by
      by_contra hq0'
      push_neg at hq0'
      have h1 := mul_nonneg
        (show (0 : ℝ) ≤ -((cx : ℝ) * 64 - 1/100 - px) from by linarith)
        (show (0 : ℝ) ≤ -(rdy / rdx) from by linarith)
      rw [neg_mul_neg] at h1
      linarith
    have hDq : 64 < (px - ((cx : ℝ) * 64 - 1/100)) * (rdy / rdx) := by
      have hexp : (px - ((cx : ℝ) * 64 - 1/100)) * (rdy / rdx) =
          -(((cx : ℝ) * 64 - 1/100 - px) * (rdy / rdx)) := by ring
      rw [hexp]
      linarith
    have hD0 : (0 : ℝ) < px - ((cx : ℝ) * 64 - 1/100) := by linarith
    have hDq' : (px - ((cx : ℝ) * 64 - 1/100)) * (rdy / rdx) ≤
        px - ((cx : ℝ) * 64 - 1/100) :=
      mul_le_of_le_one_right hD0.le hq.2
    have hD64 : 64 < px - ((cx : ℝ) * 64 - 1/100) := by linarith
    have hpyDq : py < (px - ((cx : ℝ) * 64 - 1/100)) * (rdy / rdx) := by
      have hexp : (px - ((cx : ℝ) * 64 - 1/100)) * (rdy / rdx) =
          -(((cx : ℝ) * 64 - 1/100 - px) * (rdy / rdx)) := by ring
      rw [hexp]
      linarith
    have hpyu : py < 64 + 1/100 := by linarith
    have hcyeq : cy = 1 := by
      by_contra hne
      have h2 : (2 : ℝ) ≤ (cy : ℝ) := by exact_mod_cast (by omega : 2 ≤ cy)
      linarith
    have hrdyneg : rdy < 0 := by
      have hrdyq : rdy / rdx * rdx = rdy := div_mul_cancel₀ rdy hrdxne
      have h1 := mul_pos hq0 (show (0 : ℝ) < -rdx from by linarith)
      rw [mul_neg, hrdyq] at h1
      linarith
    have hrdyne : rdy ≠ 0 := ne_of_lt hrdyneg
    have ht0 : 0 < rdx / rdy := by
      rw [show rdx / rdy = -rdx / -rdy from (neg_div_neg_eq rdx rdy).symm]
      exact div_pos (by linarith) (by linarith)
    have htu : (rdx / rdy) * 64 < px - ((cx : ℝ) * 64 - 1/100) := by
      by_contra hcon
      push_neg at hcon
      have h1 : (px - ((cx : ℝ) * 64 - 1/100)) * (rdy / rdx) ≤
          (rdx / rdy) * 64 * (rdy / rdx) :=
        mul_le_mul_of_nonneg_right hcon hq0.le
      have h2 : (rdx / rdy) * 64 * (rdy / rdx) = 64 := by
        field_simp
      linarith
    have ht2 : rdx / rdy < 102/100 := by linarith
    have hE1 : 1/100 < py - ((cy : ℝ) * 64 - 1/100) := by linarith
    have hE2 : py - ((cy : ℝ) * 64 - 1/100) < 2/100 := by
      have hcyr : (cy : ℝ) = 1 := by exact_mod_cast hcyeq
      linarith
    right
    unfold hTest
    rw [if_neg hrdyne]
    simp only [if_pos hrdyneg]
    rw [hfpy]
    have hfy0 : ⌊((cy : ℝ) * 64 - 1/100) / 64⌋ = cy - 1 := by
      apply floor_div64_eq
      · push_cast
        linarith
      · push_cast
        linarith
    have hFp : (py - ((cy : ℝ) * 64 - 1/100)) * (rdx / rdy) <
        (2/100) * (102/100) :=
      mul_lt_mul'' hE2 ht2 (by linarith) ht0.le
    have hF : -(3/100) < ((cy : ℝ) * 64 - 1/100 - py) * (rdx / rdy) := by
      have hexp : ((cy : ℝ) * 64 - 1/100 - py) * (rdx / rdy) =
          -((py - ((cy : ℝ) * 64 - 1/100)) * (rdx / rdy)) := by ring
      rw [hexp]
      linarith
    have hpxll : 64 * ((cx : ℝ) + 1) - 1/100 < px := by linarith
    have htxH : ⌊(px + ((cy : ℝ) * 64 - 1/100 - py) * (rdx / rdy)) / 64⌋ = cx := by
      apply floor_div64_eq
      · linarith
      · have hFneg : ((cy : ℝ) * 64 - 1/100 - py) * (rdx / rdy) < 0 :=
          mul_neg_of_neg_of_pos (by linarith) ht0
        linarith
    have hcell : 0 < g (⌊((cy : ℝ) * 64 - 1/100) / 64⌋ * 8 +
        ⌊(px + ((cy : ℝ) * 64 - 1/100 - py) * (rdx / rdy)) / 64⌋) := by
      rw [htxH, hfy0, hcyeq]
      simpa using hbdry cx 0 (by omega) (by omega) le_rfl (by omega)
        (Or.inr (Or.inr (Or.inl rfl)))
    exact ⟨_, stepLoop_hit g (-64 * (rdx / rdy)) (-64)
      (px + ((cy : ℝ) * 64 - 1/100 - py) * (rdx / rdy)) ((cy : ℝ) * 64 - 1/100) 7
      (by rw [htxH]; omega) (by rw [htxH]; omega)
      (by rw [hfy0]; omega) (by rw [hfy0]; omega) hcell⟩
  · rcases le_or_lt ⌊(py + ((cx : ℝ) * 64 - 1/100 - px) * (rdy / rdx)) / 64⌋ 7
      with h7 | hB
    · -- the first test point is inside the grid: the vertical walk
      -- reaches the boundary column
      left
      unfold vTest
      rw [if_neg hrdxne]
      simp only [if_pos hrdx]
      rw [hfpx]
      apply walkLeft g hbdry (-64 * (rdy / rdx)) (by linarith [hq.2])
        (by linarith [hq.1]) 8 _ _ (by rw [hfx0]; omega) (by rw [hfx0]; omega)
        h0 h7
      rw [hfx0]
      push_cast
      omega
    · -- the first test point falls below the grid: py is within a
      -- hundredth of the bottom edge of row 6 and the ray is
      -- near-diagonal down-left, so the horizontal test hits the bottom
      -- boundary row at its first crossing
      have hty0ge : 512 ≤ py + ((cx : ℝ) * 64 - 1/100 - px) * (rdy / rdx) :=
        floor_ge8 (by omega)
      have hq0 : rdy / rdx < 0 := by
        by_contra hq0'
        push_neg at hq0'
        have h1 := mul_nonneg
          (show (0 : ℝ) ≤ -((cx : ℝ) * 64 - 1/100 - px) from by linarith) hq0'
        rw [neg_mul] at h1
        linarith
      have hDq : 64 < (px - ((cx : ℝ) * 64 - 1/100)) * (-(rdy / rdx)) := by
        have hexp : (px - ((cx : ℝ) * 64 - 1/100)) * (-(rdy / rdx)) =
            ((cx : ℝ) * 64 - 1/100 - px) * (rdy / rdx) := by ring
        rw [hexp]
        linarith
      have hD0 : (0 : ℝ) < px - ((cx : ℝ) * 64 - 1/100) := by linarith
      have hDq' : (px - ((cx : ℝ) * 64 - 1/100)) * (-(rdy / rdx)) ≤
          px - ((cx : ℝ) * 64 - 1/100) :=
        mul_le_of_le_one_right hD0.le (by linarith [hq.1])
      have hD64 : 64 < px - ((cx : ℝ) * 64 - 1/100) := by linarith
      have hpyDq : 512 - (px - ((cx : ℝ) * 64 - 1/100)) * (-(rdy / rdx)) ≤ py := by
        have hexp : (px - ((cx : ℝ) * 64 - 1/100)) * (-(rdy / rdx)) =
            ((cx : ℝ) * 64 - 1/100 - px) * (rdy / rdx) := by ring
        rw [hexp]
        linarith
      have hpyl : 448 - 1/100 < py := by linarith
      have hcyeq : cy = 6 := by
        by_contra hne
        have h2 : (cy : ℝ) ≤ 5 := by exact_mod_cast (by omega : cy ≤ 5)
        linarith
      have hrdypos : 0 < rdy := by
        have hrdyq : rdy / rdx * rdx = rdy := div_mul_cancel₀ rdy hrdxne
        have h1 := mul_pos (show (0 : ℝ) < -(rdy / rdx) from by linarith)
          (show (0 : ℝ) < -rdx from by linarith)
        rw [neg_mul_neg, hrdyq] at h1
        exact h1
      have hrdyne : rdy ≠ 0 := ne_of_gt hrdypos
      have ht0 : rdx / rdy < 0 := div_neg_of_neg_of_pos hrdx hrdypos
      have htu : (-(rdx / rdy)) * 64 < px - ((cx : ℝ) * 64 - 1/100) := by
        by_contra hcon
        push_neg at hcon
        have h1 : (px - ((cx : ℝ) * 64 - 1/100)) * (-(rdy / rdx)) ≤
            (-(rdx / rdy)) * 64 * (-(rdy / rdx)) :=
          mul_le_mul_of_nonneg_right hcon (by linarith)
        have h2 : (-(rdx / rdy)) * 64 * (-(rdy / rdx)) = 64 := by
          field_simp
        linarith
      have ht2 : -(rdx / rdy) < 102/100 := by linarith
      have hE1 : 0 < (cy : ℝ) * 64 + 64 - py := by linarith
      have hE2 : (cy : ℝ) * 64 + 64 - py < 1/100 := by
        have hcyr : (cy : ℝ) = 6 := by exact_mod_cast hcyeq
        linarith
      right
      unfold hTest
      rw [if_neg hrdyne]
      simp only [if_neg (not_lt.mpr hrdypos.le)]
      rw [hfpy]
      have hfy1 : ⌊((cy : ℝ) * 64 + 64) / 64⌋ = cy + 1 := by
        have e : ((cy : ℝ) * 64 + 64) / 64 = ((cy + 1 : ℤ) : ℝ) := by
          push_cast
          field_simp
          ring
        rw [e, Int.floor_intCast]
      have hFp : ((cy : ℝ) * 64 + 64 - py) * (-(rdx / rdy)) <
          (1/100) * (102/100) :=
        mul_lt_mul'' hE2 ht2 hE1.le (by linarith)
      have hF : -(2/100) < ((cy : ℝ) * 64 + 64 - py) * (rdx / rdy) := by
        have hexp : ((cy : ℝ) * 64 + 64 - py) * (rdx / rdy) =
            -(((cy : ℝ) * 64 + 64 - py) * (-(rdx / rdy))) := by ring
        rw [hexp]
        linarith
      have hpxll : 64 * ((cx : ℝ) + 1) - 1/100 < px := by linarith
      have htxH : ⌊(px + ((cy : ℝ) * 64 + 64 - py) * (rdx / rdy)) / 64⌋ = cx := by
        apply floor_div64_eq
        · linarith
        · have hFneg : ((cy : ℝ) * 64 + 64 - py) * (rdx / rdy) < 0 :=
            mul_neg_of_pos_of_neg hE1 ht0
          linarith
      have hcell : 0 < g (⌊((cy : ℝ) * 64 + 64) / 64⌋ * 8 +
          ⌊(px + ((cy : ℝ) * 64 + 64 - py) * (rdx / rdy)) / 64⌋) := by
        rw [htxH, hfy1, hcyeq]
        simpa using hbdry cx 7 (by omega) (by omega) (by omega) le_rfl
          (Or.inr (Or.inr (Or.inr rfl)))
      exact ⟨_, stepLoop_hit g (64 * (rdx / rdy)) 64
        (px + ((cy : ℝ) * 64 + 64 - py) * (rdx / rdy)) ((cy : ℝ) * 64 + 64) 7
        (by rw [htxH]; omega) (by rw [htxH]; omega)
        (by rw [hfy1]; omega) (by rw [hfy1]; omega) hcell⟩

lemma hTest_good (g : ℤ → ℤ) (px py rdx rdy hx hy : ℝ) (w : ℤ)
    (h : hTest g px py rdx rdy = some (hx, hy, w)) :
    0 ≤ ⌊hx / 64⌋ ∧ ⌊hx / 64⌋ ≤ 7 ∧ 0 ≤ ⌊hy / 64⌋ ∧ ⌊hy / 64⌋ ≤ 7 ∧
      w = g (⌊hy / 64⌋ * 8 + ⌊hx / 64⌋) ∧ 0 < w := by
  unfold hTest at h
  by_cases h0 : rdy = 0
  · rw [if_pos h0] at h
    exact absurd h (by simp)
  · rw [if_neg h0] at h
    exact stepLoop_some _ _ _ _ _ _ _ _ _ h

lemma vTest_good (g : ℤ → ℤ) (px py rdx rdy hx hy : ℝ) (w : ℤ)
    (h : vTest g px py rdx rdy = some (hx, hy, w)) :
    0 ≤ ⌊hx / 64⌋ ∧ ⌊hx / 64⌋ ≤ 7 ∧ 0 ≤ ⌊hy / 64⌋ ∧ ⌊hy / 64⌋ ≤ 7 ∧
      w = g (⌊hy / 64⌋ * 8 + ⌊hx / 64⌋) ∧ 0 < w := by
  unfold vTest at h
  by_cases h0 : rdx = 0
  · rw [if_pos h0] at h
    exact absurd h (by simp)
  · rw [if_neg h0] at h
    exact stepLoop_some _ _ _ _ _ _ _ _ _ h

lemma testResult_none (px py : ℝ) :
    testResult px py none = (1000000, 0, 0, 0) := rfl

lemma testResult_some (px py hx hy : ℝ) (w : ℤ) :
    testResult px py (some (hx, hy, w)) =
      (Real.sqrt ((hx - px) ^ 2 + (hy - py) ^ 2), hx, hy, w) := rfl

lemma hit_dist_lt (px py hx hy : ℝ) (hpx1 : 0 < px) (hpx2 : px < 512)
    (hpy1 : 0 < py) (hpy2 : py < 512)
    (h1 : 0 ≤ ⌊hx / 64⌋) (h2 : ⌊hx / 64⌋ ≤ 7)
    (h3 : 0 ≤ ⌊hy / 64⌋) (h4 : ⌊hy / 64⌋ ≤ 7) :
    Real.sqrt ((hx - px) ^ 2 + (hy - py) ^ 2) < 1000000 := by
  have hx0 := floor_nonneg_lb h1
  have hx1 := floor_le7_ub h2
  have hy0 := floor_nonneg_lb h3
  have hy1 := floor_le7_ub h4
  have hb : (hx - px) ^ 2 + (hy - py) ^ 2 ≤ 524288 := by
    nlinarith [mul_pos (show (0 : ℝ) < 512 - (hx - px) from by linarith)
        (show (0 : ℝ) < 512 + (hx - px) from by linarith),
      mul_pos (show (0 : ℝ) < 512 - (hy - py) from by linarith)
        (show (0 : ℝ) < 512 + (hy - py) from by linarith)]
  have hs : Real.sqrt ((hx - px) ^ 2 + (hy - py) ^ 2) ≤ Real.sqrt 524288 :=
    Real.sqrt_le_sqrt hb
  have h6 : Real.sqrt 524288 < 1000000 := by
    rw [show (1000000 : ℝ) = Real.sqrt (1000000 ^ 2) from by
      rw [Real.sqrt_sq] <;> norm_num]
    apply Real.sqrt_lt_sqrt <;> norm_num
  linarith

lemma castRay_good (g : ℤ → ℤ) (px py rdx rdy : ℝ)
    (hpx1 : 0 < px) (hpx2 : px < 512) (hpy1 : 0 < py) (hpy2 : py < 512)
    (hone : (∃ p, hTest g px py rdx rdy = some p) ∨
      (∃ p, vTest g px py rdx rdy = some p)) :
    (castRay g px py rdx rdy).2.2.1 < 1000000 ∧
    0 < (castRay g px py rdx rdy).2.2.2.2 ∧
    0 ≤ ⌊(castRay g px py rdx rdy).1 / 64⌋ ∧
    ⌊(castRay g px py rdx rdy).1 / 64⌋ ≤ 7 ∧
    0 ≤ ⌊(castRay g px py rdx rdy).2.1 / 64⌋ ∧
    ⌊(castRay g px py rdx rdy).2.1 / 64⌋ ≤ 7 ∧
    (castRay g px py rdx rdy).2.2.2.2 =
      g (⌊(castRay g px py rdx rdy).2.1 / 64⌋ * 8 +
        ⌊(castRay g px py rdx rdy).1 / 64⌋) := by
  unfold castRay
  cases hh : hTest g px py rdx rdy with
  | none =>
    cases hv : vTest g px py rdx rdy with
    | none =>
      exfalso
      rcases hone with ⟨p, hp⟩ | ⟨p, hp⟩
      · rw [hh] at hp
        exact absurd hp (by simp)
      · rw [hv] at hp
        exact absurd hp (by simp)
    | some pv =>
      obtain ⟨vx, vy, vw⟩ := pv
      obtain ⟨g1, g2, g3, g4, g5, g6⟩ := vTest_good g px py rdx rdy vx vy vw hv
      have hdv := hit_dist_lt px py vx vy hpx1 hpx2 hpy1 hpy2 g1 g2 g3 g4
      rw [testResult_none, testResult_some]
      unfold selectHit
      rw [if_neg (not_lt.mpr hdv.le)]
      exact ⟨hdv, g6, g1, g2, g3, g4, g5⟩
  | some ph =>
    obtain ⟨hxh, hyh, wh⟩ := ph
    obtain ⟨f1, f2, f3, f4, f5, f6⟩ := hTest_good g px py rdx rdy hxh hyh wh hh
    have hdh := hit_dist_lt px py hxh hyh hpx1 hpx2 hpy1 hpy2 f1 f2 f3 f4
    cases hv : vTest g px py rdx rdy with
    | none =>
      rw [testResult_none, testResult_some]
      unfold selectHit
      rw [if_pos hdh]
      exact ⟨hdh, f6, f1, f2, f3, f4, f5⟩
    | some pv =>
      obtain ⟨vx, vy, vw⟩ := pv
      obtain ⟨g1, g2, g3, g4, g5, g6⟩ := vTest_good g px py rdx rdy vx vy vw hv
      have hdv := hit_dist_lt px py vx vy hpx1 hpx2 hpy1 hpy2 g1 g2 g3 g4
      rw [testResult_some, testResult_some]
      unfold selectHit
      by_cases hlt : Real.sqrt ((hxh - px) ^ 2 + (hyh - py) ^ 2) <
          Real.sqrt ((vx - px) ^ 2 + (vy - py) ^ 2)
      · rw [if_pos hlt]
        exact ⟨hdh, f6, f1, f2, f3, f4, f5⟩
      · rw [if_neg hlt]
        exact ⟨hdv, g6, g1, g2, g3, g4, g5⟩

lemma drawlineLoop_xmajor (dx dy h sx sy : ℤ)
    (hdy0 : 0 ≤ dy) (hdxy : dy < dx) (hh0 : 0 ≤ h) (hh1 : h < dx)
    (hsx : sx = 1 ∨ sx = -1) (hsy : sy = 1 ∨ sy = -1) :
    ∀ (a fuel : ℕ), a < fuel → ∀ (b err x y : ℤ) (acc : List (ℤ × ℤ)),
      0 ≤ b → b ≤ (a : ℤ) → err = h + (a : ℤ) * dy - b * dx → -dx < err →
      ∃ pts,
        drawlineLoop (x + sx * (a : ℤ)) (y + sy * b) sx sy dx dy fuel x y err acc
          = some pts ∧
        (x, y) ∈ pts ∧ (x + sx * (a : ℤ), y + sy * b) ∈ pts ∧
        ∀ p ∈ acc, p ∈ pts := by
  intro a
  induction a with
  | zero =>
    intro fuel hfuel b err x y acc hb0 hba herr hE
    obtain ⟨f, rfl⟩ : ∃ f, fuel = f + 1 := ⟨fuel - 1, by omega⟩
    have hb : b = 0 := by
      have : (((0 : ℕ) : ℤ)) = 0 := rfl
      omega
    subst hb
    rw [drawlineLoop, if_pos ⟨by simp, by simp⟩]
    exact ⟨(x, y) :: acc, rfl, by simp, by simp, fun p hp => by simp [hp]⟩
  | succ n ih =>
    intro fuel hfuel b err x y acc hb0 hba herr hE
    obtain ⟨f, rfl⟩ : ∃ f, fuel = f + 1 := ⟨fuel - 1, by omega⟩
    have hn0 : (0 : ℤ) ≤ (n : ℤ) := Int.natCast_nonneg n
    have hban : b ≤ (n : ℤ) + 1 := by
      have : ((n + 1 : ℕ) : ℤ) = (n : ℤ) + 1 := by push_cast; ring
      omega
    have hxne : ¬ (x = x + sx * ((n + 1 : ℕ) : ℤ) ∧ y = y + sy * b) := by
      rintro ⟨h1, -⟩
      rcases hsx with rfl | rfl <;> (push_cast at h1; omega)
    rw [drawlineLoop, if_neg hxne]
    by_cases hyd : err < dy
    · -- both x and y step
      have hb1 : 1 ≤ b := by
        rcases lt_or_ge b 1 with hb' | hb'
        · exfalso
          have hb00 : b = 0 := by omega
          subst hb00
          have hdy' : dy ≤ err := by
            rw [herr]
            push_cast
            nlinarith
          omega
        · exact hb'
      have herr' : err - dy + dx = h + (n : ℤ) * dy - (b - 1) * dx := by
        rw [herr]
        push_cast
        ring
      have hE' : -dx < err - dy + dx := by omega
      obtain ⟨pts, hrun, hmem1, hmem2, hacc⟩ :=
        ih f (by omega) (b - 1) (err - dy + dx) (x + sx) (y + sy)
          ((x, y) :: acc) (by omega) (by omega) herr' hE'
      have e1 : x + sx * ((n + 1 : ℕ) : ℤ) = x + sx + sx * (n : ℤ) := by
        push_cast
        ring
      have e2 : y + sy * b = y + sy + sy * (b - 1) := by ring
      refine ⟨pts, ?_, hacc (x, y) (by simp), ?_, fun p hp => hacc p (by simp [hp])⟩
      · simp only [if_pos hE, if_pos hyd]
        rw [e1, e2, show dx + (err - dy) = err - dy + dx from by ring]
        exact hrun
      · rw [e1, e2]
        exact hmem2
    · -- only x steps
      have hbn : b ≤ (n : ℤ) := by
        rcases lt_or_ge (n : ℤ) b with hb' | hb'
        · exfalso
          have hbeq : b = (n : ℤ) + 1 := by omega
          have : err < dy := by
            rw [herr, hbeq]
            have hstep : ((n : ℤ) + 1) * (dy - dx) ≤ 1 * (dy - dx) :=
              mul_le_mul_of_nonpos_right (by omega) (by omega)
            push_cast
            nlinarith
          exact hyd this
        · exact hb'
      have herr' : err - dy = h + (n : ℤ) * dy - b * dx := by
        rw [herr]
        push_cast
        ring
      have hE' : -dx < err - dy := by omega
      obtain ⟨pts, hrun, hmem1, hmem2, hacc⟩ :=
        ih f (by omega) b (err - dy) (x + sx) y ((x, y) :: acc)
          hb0 hbn herr' hE'
      have e1 : x + sx * ((n + 1 : ℕ) : ℤ) = x + sx + sx * (n : ℤ) := by
        push_cast
        ring
      refine ⟨pts, ?_, hacc (x, y) (by simp), ?_, fun p hp => hacc p (by simp [hp])⟩
      · simp only [if_pos hE, if_neg hyd]
        rw [e1, show (0 : ℤ) + (err - dy) = err - dy from by ring]
        exact hrun
      · rw [e1]
        exact hmem2

lemma drawlineLoop_ymajor (dx dy h sx sy : ℤ)
    (hdx0 : 0 ≤ dx) (hdxy : dx ≤ dy) (hh0 : 0 ≤ h) (hh1 : h < dy)
    (hsx : sx = 1 ∨ sx = -1) (hsy : sy = 1 ∨ sy = -1) :
    ∀ (b fuel : ℕ), b < fuel → ∀ (a err x y : ℤ) (acc : List (ℤ × ℤ)),
      0 ≤ a → a ≤ (b : ℤ) → err = -h + a * dy - (b : ℤ) * dx → err < dy →
      ∃ pts,
        drawlineLoop (x + sx * a) (y + sy * (b : ℤ)) sx sy dx dy fuel x y err acc
          = some pts ∧
        (x, y) ∈ pts ∧ (x + sx * a, y + sy * (b : ℤ)) ∈ pts ∧
        ∀ p ∈ acc, p ∈ pts := by
  intro b
  induction b with
  | zero =>
    intro fuel hfuel a err x y acc ha0 hab herr hE
    obtain ⟨f, rfl⟩ : ∃ f, fuel = f + 1 := ⟨fuel - 1, by omega⟩
    have ha : a = 0 := by
      have : (((0 : ℕ) : ℤ)) = 0 := rfl
      omega
    subst ha
    rw [drawlineLoop, if_pos ⟨by simp, by simp⟩]
    exact ⟨(x, y) :: acc, rfl, by simp, by simp, fun p hp => by simp [hp]⟩
  | succ m ih =>
    intro fuel hfuel a err x y acc ha0 hab herr hE
    obtain ⟨f, rfl⟩ : ∃ f, fuel = f + 1 := ⟨fuel - 1, by omega⟩
    have hm0 : (0 : ℤ) ≤ (m : ℤ) := Int.natCast_nonneg m
    have hdy1 : 1 ≤ dy := by omega
    have habm : a ≤ (m : ℤ) + 1 := by
      have : ((m + 1 : ℕ) : ℤ) = (m : ℤ) + 1 := by push_cast; ring
      omega
    have hyne : ¬ (x = x + sx * a ∧ y = y + sy * ((m + 1 : ℕ) : ℤ)) := by
      rintro ⟨-, h2⟩
      rcases hsy with rfl | rfl <;> (push_cast at h2; omega)
    rw [drawlineLoop, if_neg hyne]
    by_cases hxs : -dx < err
    · -- both x and y step
      have ha1 : 1 ≤ a := by
        rcases lt_or_ge a 1 with ha' | ha'
        · exfalso
          have ha00 : a = 0 := by omega
          subst ha00
          have : err ≤ -dx := by
            rw [herr]
            push_cast
            nlinarith
          omega
        · exact ha'
      have herr' : err - dy + dx = -h + (a - 1) * dy - (m : ℤ) * dx := by
        rw [herr]
        push_cast
        ring
      have hE' : err - dy + dx < dy := by omega
      obtain ⟨pts, hrun, hmem1, hmem2, hacc⟩ :=
        ih f (by omega) (a - 1) (err - dy + dx) (x + sx) (y + sy)
          ((x, y) :: acc) (by omega) (by omega) herr' hE'
      have e1 : y + sy * ((m + 1 : ℕ) : ℤ) = y + sy + sy * (m : ℤ) := by
        push_cast
        ring
      have e2 : x + sx * a = x + sx + sx * (a - 1) := by ring
      refine ⟨pts, ?_, hacc (x, y) (by simp), ?_, fun p hp => hacc p (by simp [hp])⟩
      · simp only [if_pos hxs, if_pos hE]
        rw [e1, e2, show dx + (err - dy) = err - dy + dx from by ring]
        exact hrun
      · rw [e1, e2]
        exact hmem2
    · -- only y steps
      have han : a ≤ (m : ℤ) := by
        rcases lt_or_ge (m : ℤ) a with ha' | ha'
        · exfalso
          have haeq : a = (m : ℤ) + 1 := by omega
          have : -dx < err := by
            rw [herr, haeq]
            have hstep : 1 * (dy - dx) ≤ ((m : ℤ) + 1) * (dy - dx) :=
              mul_le_mul_of_nonneg_right (by omega) (by omega)
            push_cast
            nlinarith
          exact hxs this
        · exact ha'
      have herr' : err + dx = -h + a * dy - (m : ℤ) * dx := by
        rw [herr]
        push_cast
        ring
      have hE' : err + dx < dy := by omega
      obtain ⟨pts, hrun, hmem1, hmem2, hacc⟩ :=
        ih f (by omega) a (err + dx) x (y + sy) ((x, y) :: acc)
          ha0 han herr' hE'
      have e1 : y + sy * ((m + 1 : ℕ) : ℤ) = y + sy + sy * (m : ℤ) := by
        push_cast
        ring
      refine ⟨pts, ?_, hacc (x, y) (by simp), ?_, fun p hp => hacc p (by simp [hp])⟩
      · simp only [if_neg hxs, if_pos hE]
        rw [e1, show dx + err = err + dx from by ring]
        exact hrun
      · rw [e1]
        exact hmem2

lemma bres_dx_nonneg (x0 x1 : ℤ) : 0 ≤ bres_dx x0 x1 := by
  unfold bres_dx
  split_ifs <;> omega

lemma bres_sx_cases (x0 x1 : ℤ) : bres_sx x0 x1 = 1 ∨ bres_sx x0 x1 = -1 := by
  unfold bres_sx
  split_ifs <;> simp

lemma bres_reach (x0 x1 : ℤ) : x0 + bres_sx x0 x1 * bres_dx x0 x1 = x1 := by
  unfold bres_sx bres_dx
  split_ifs <;> omega

/-- Claim C8: for all integer endpoints, r_drawline terminates within the
|x1-x0| + |y1-y0| + 1 iteration budget (the fuelled loop returns a result
instead of running out), using only integer arithmetic by construction,
and the set of drawn points contains both endpoints. -/
theorem r_drawline_spec (x0 y0 x1 y1 : ℤ) :
    ∃ pts, r_drawline x0 y0 x1 y1 = some pts ∧
      (x0, y0) ∈ pts ∧ (x1, y1) ∈ pts := by
  have hdx0 := bres_dx_nonneg x0 x1
  have hdy0 := bres_dx_nonneg y0 y1
  have hsx := bres_sx_cases x0 x1
  have hsy := bres_sx_cases y0 y1
  have hrx := bres_reach x0 x1
  have hry := bres_reach y0 y1
  unfold r_drawline
  rcases lt_or_ge (bres_dx y0 y1) (bres_dx x0 x1) with hmaj | hmaj
  · -- x-major
    have herr0 : bres_err (bres_dx x0 x1) (bres_dx y0 y1) = bres_dx x0 x1 / 2 := by
      unfold bres_err
      rw [if_pos hmaj]
    have hcast : ((bres_dx x0 x1).toNat : ℤ) = bres_dx x0 x1 := Int.toNat_of_nonneg hdx0
    obtain ⟨pts, hrun, hm1, hm2, -⟩ :=
      drawlineLoop_xmajor (bres_dx x0 x1) (bres_dx y0 y1)
        (bres_dx x0 x1 / 2) (bres_sx x0 x1) (bres_sx y0 y1)
        hdy0 hmaj (by omega) (by omega) hsx hsy
        (bres_dx x0 x1).toNat
        (bres_dx x0 x1 + bres_dx y0 y1 + 1).toNat (by omega)
        (bres_dx y0 y1) (bres_dx x0 x1 / 2) x0 y0 []
        hdy0 (by omega) (by rw [hcast]; ring) (by omega)
    rw [hcast] at hrun hm2
    rw [hrx] at hrun hm2
    rw [hry] at hrun hm2
    rw [herr0]
    exact ⟨pts, hrun, hm1, hm2⟩
  · -- y-major (including the degenerate single-point case)
    rcases eq_or_lt_of_le hdy0 with hdyz | hdy1
    · -- dy = 0, hence dx = 0 and the two endpoints coincide
      have hdxz : bres_dx x0 x1 = 0 := by omega
      have hx : x1 = x0 := by
        unfold bres_dx at hdxz
        split_ifs at hdxz <;> omega
      have hy : y1 = y0 := by
        have hdyz' : bres_dx y0 y1 = 0 := by omega
        unfold bres_dx at hdyz'
        split_ifs at hdyz' <;> omega
      refine ⟨[(x0, y0)], ?_, by simp, by simp [hx, hy]⟩
      have hfuel : (bres_dx x0 x1 + bres_dx y0 y1 + 1).toNat = 1 := by omega
      rw [hfuel, drawlineLoop, if_pos ⟨hx.symm, hy.symm⟩]
    · -- dy ≥ 1
      have herr0 : bres_err (bres_dx x0 x1) (bres_dx y0 y1) =
          -(bres_dx y0 y1 / 2) := by
        unfold bres_err
        rw [if_neg (by omega)]
      have hcast : ((bres_dx y0 y1).toNat : ℤ) = bres_dx y0 y1 := Int.toNat_of_nonneg hdy0
      obtain ⟨pts, hrun, hm1, hm2, -⟩ :=
        drawlineLoop_ymajor (bres_dx x0 x1) (bres_dx y0 y1)
          (bres_dx y0 y1 / 2) (bres_sx x0 x1) (bres_sx y0 y1)
          hdx0 (by omega) (by omega) (by omega) hsx hsy
          (bres_dx y0 y1).toNat
          (bres_dx x0 x1 + bres_dx y0 y1 + 1).toNat (by omega)
          (bres_dx x0 x1) (-(bres_dx y0 y1 / 2)) x0 y0 []
          hdx0 (by omega) (by rw [hcast]; ring) (by omega)
      rw [hcast] at hrun hm2
      rw [hrx] at hrun hm2
      rw [hry] at hrun hm2
      rw [herr0]
      exact ⟨pts, hrun, hm1, hm2⟩

/-- Claim C9: each grid-line stepping loop executes at most 8 (the map's
row and column count) loop-body iterations regardless of slope, so the
traversal terminates; and for every camera position strictly inside an
empty cell of a grid whose boundary cells are all nonzero and whose
interior cells are all zero, every cast ray (any nonzero direction)
reports a hit at the surrounding boundary wall: the selected distance is
strictly below the 1000000 no-hit sentinel, the selected wall code is
positive, and the selected hit point lies in an edge cell of the 8x8
grid. -/
theorem ray_traversal_spec (g : ℤ → ℤ) (px py rdx rdy : ℝ) (cx cy : ℤ)
    (hbdry : ∀ i j : ℤ, 0 ≤ i → i ≤ 7 → 0 ≤ j → j ≤ 7 →
      (i = 0 ∨ i = 7 ∨ j = 0 ∨ j = 7) → 0 < g (j * 8 + i))
    (hinterior : ∀ i j : ℤ, 1 ≤ i → i ≤ 6 → 1 ≤ j → j ≤ 6 → g (j * 8 + i) = 0)
    (hcx1 : 1 ≤ cx) (hcx2 : cx ≤ 6) (hcy1 : 1 ≤ cy) (hcy2 : cy ≤ 6)
    (hpx1 : (64 * cx : ℝ) < px) (hpx2 : px < 64 * cx + 64)
    (hpy1 : (64 * cy : ℝ) < py) (hpy2 : py < 64 * cy + 64)
    (hdir : rdx ≠ 0 ∨ rdy ≠ 0) :
    (∀ (g' : ℤ → ℤ) (dX dY tX tY : ℝ), stepLoopCount g' dX dY 8 tX tY ≤ 8) ∧
    (castRay g px py rdx rdy).2.2.1 < 1000000 ∧
    0 < (castRay g px py rdx rdy).2.2.2.2 ∧
    (⌊(castRay g px py rdx rdy).1 / 64⌋ = 0 ∨
      ⌊(castRay g px py rdx rdy).1 / 64⌋ = 7 ∨
      ⌊(castRay g px py rdx rdy).2.1 / 64⌋ = 0 ∨
      ⌊(castRay g px py rdx rdy).2.1 / 64⌋ = 7) := by
  have hcxR1 : (1 : ℝ) ≤ (cx : ℝ) := by exact_mod_cast hcx1
  have hcxR6 : (cx : ℝ) ≤ 6 := by exact_mod_cast hcx2
  have hcyR1 : (1 : ℝ) ≤ (cy : ℝ) := by exact_mod_cast hcy1
  have hcyR6 : (cy : ℝ) ≤ 6 := by exact_mod_cast hcy2
  have hone : (∃ p, hTest g px py rdx rdy = some p) ∨
      (∃ p, vTest g px py rdx rdy = some p) := by
    rcases le_or_lt |rdx| |rdy| with hsteep | hshallow
    · have hrdyne : rdy ≠ 0 := by
        intro h0
        rw [h0, abs_zero] at hsteep
        have h1 : rdx = 0 := abs_eq_zero.mp (le_antisymm hsteep (abs_nonneg _))
        rcases hdir with h | h
        · exact h h1
        · exact h h0
      rcases lt_or_gt_of_ne hrdyne with hneg | hpos
      · have habs := abs_le.mp (le_of_le_of_eq hsteep (abs_of_neg hneg))
        exact hTest_up g hbdry px py rdx rdy cx cy hcx1 hcx2 hcy1 hcy2
          hpx1 hpx2 hpy1 hpy2 hneg habs.2 (by linarith [habs.1])
      · have habs := abs_le.mp (le_of_le_of_eq hsteep (abs_of_pos hpos))
        exact Or.inl (hTest_down g hbdry px py rdx rdy cx cy hcx1 hcx2
          hcy1 hcy2 hpx1 hpx2 hpy1 hpy2 hpos habs.1 habs.2)
    · have hrdxne : rdx ≠ 0 := by
        intro h0
        rw [h0, abs_zero] at hshallow
        exact absurd hshallow (not_lt.mpr (abs_nonneg _))
      rcases lt_or_gt_of_ne hrdxne with hneg | hpos
      · have habs := abs_le.mp
          (le_of_lt (lt_of_lt_of_eq hshallow (abs_of_neg hneg)))
        exact (vTest_left g hbdry px py rdx rdy cx cy hcx1 hcx2 hcy1 hcy2
          hpx1 hpx2 hpy1 hpy2 hneg habs.2 (by linarith [habs.1])).symm
      · have habs := abs_le.mp
          (le_of_lt (lt_of_lt_of_eq hshallow (abs_of_pos hpos)))
        exact Or.inr (vTest_right g hbdry px py rdx rdy cx cy hcx1 hcx2
          hcy1 hcy2 hpx1 hpx2 hpy1 hpy2 hpos habs.1 habs.2)
  obtain ⟨m1, m2, m3, m4, m5, m6, m7⟩ :=
    castRay_good g px py rdx rdy (by linarith) (by linarith) (by linarith)
      (by linarith) hone
  refine ⟨fun g' dX dY tX tY => stepLoopCount_le g' dX dY 8 tX tY, m1, m2, ?_⟩
  by_contra hcon
  push_neg at hcon
  obtain ⟨e1, e2, e3, e4⟩ := hcon
  have hz := hinterior ⌊(castRay g px py rdx rdy).1 / 64⌋
    ⌊(castRay g px py rdx rdy).2.1 / 64⌋ (by omega) (by omega) (by omega)
    (by omega)
  omega

/-- Claim C9 witness: a wall-bordered, empty-interior grid with the camera
at (200, 195), strictly inside the empty cell (3, 3), and a ray cast along
the positive x axis. -/
theorem ray_traversal_spec_witness :
    (castRay (fun n => if 9 ≤ n ∧ n ≤ 54 ∧ 1 ≤ n % 8 ∧ n % 8 ≤ 6 then 0 else 1)
        200 195 1 0).2.2.1 < 1000000 ∧
    0 < (castRay (fun n => if 9 ≤ n ∧ n ≤ 54 ∧ 1 ≤ n % 8 ∧ n % 8 ≤ 6 then 0 else 1)
        200 195 1 0).2.2.2.2 := by
  obtain ⟨-, m1, m2, -⟩ := ray_traversal_spec
    (fun n => if 9 ≤ n ∧ n ≤ 54 ∧ 1 ≤ n % 8 ∧ n % 8 ≤ 6 then 0 else 1)
    200 195 1 0 3 3
    (by
      intro i j h1 h2 h3 h4 h5
      dsimp only
      split_ifs with h
      · omega
      · omega)
    (by
      intro i j h1 h2 h3 h4
      dsimp only
      rw [if_pos (by omega)])
    (by omega) (by omega) (by omega) (by omega)
    (by norm_num) (by norm_num) (by norm_num) (by norm_num)
    (Or.inl one_ne_zero)
  exact ⟨m1, m2⟩

/-- Claim C6: at every viewport column of a sprite footprint the depth
test uses the linear interpolation of the two nearest wall-distance
buffer entries with indices clamped to the valid ray range; no pixel is
drawn in a column where the sprite's perpendicular distance is not
nearer than that interpolated wall distance by more than the epsilon,
and in a column where it is, exactly the non-sentinel texture samples
produce writes while sentinel-colored samples are skipped. -/
theorem sprite_depth_spec (wd : ℤ → ℚ) (perpDist dist : ℚ) (tex : ℤ → ℤ)
    (texX_start sprite_w texY_start sprite_h drawStartX drawStartY drawEndY x : ℤ)
    (hx1 : 512 ≤ x) (hx2 : x ≤ 1023) :
    (∃ r0 r1 : ℤ, ∃ t : ℚ, 0 ≤ r0 ∧ r0 ≤ 255 ∧ 0 ≤ r1 ∧ r1 ≤ 255 ∧
      (r1 = r0 ∨ r1 = r0 + 1) ∧ 0 ≤ t ∧ t < 1 ∧
      interpWallDist wd 2 x = (1 - t) * wd r0 + t * wd r1) ∧
    (perpDist > interpWallDist wd 2 x - 1/2000 →
      renderSpriteColumn wd 2 perpDist dist tex texX_start sprite_w texY_start
        sprite_h drawStartX drawStartY drawEndY x = []) ∧
    (perpDist ≤ interpWallDist wd 2 x - 1/2000 →
      ∀ y c : ℤ,
        (x, y, c) ∈ renderSpriteColumn wd 2 perpDist dist tex texX_start sprite_w
            texY_start sprite_h drawStartX drawStartY drawEndY x ↔
          drawStartY ≤ y ∧ y ≤ drawEndY ∧
            spriteTexSample tex (spriteTexX texX_start sprite_w drawStartX x)
              texY_start sprite_h drawStartY y ≠ 0xFFFF00FF ∧
            c = spriteShade (spriteTexSample tex
              (spriteTexX texX_start sprite_w drawStartX x)
              texY_start sprite_h drawStartY y) dist) := by
  refine ⟨?_, ?_, ?_⟩
  · have hq0 : (0 : ℚ) < rayIndexF 2 x := by
      have hxq : (x : ℚ) ≤ 1023 := by exact_mod_cast hx2
      unfold rayIndexF
      linarith
    have hq1 : rayIndexF 2 x < 256 := by
      have hxq : (512 : ℚ) ≤ (x : ℚ) := by exact_mod_cast hx1
      unfold rayIndexF
      linarith
    have hr0 : (0 : ℤ) ≤ ⌊rayIndexF 2 x⌋ := Int.le_floor.mpr (by exact_mod_cast hq0.le)
    have hr255 : ⌊rayIndexF 2 x⌋ ≤ 255 := by
      have : ⌊rayIndexF 2 x⌋ < 256 := Int.floor_lt.mpr (by exact_mod_cast hq1)
      omega
    have h0 : ¬ ⌊rayIndexF 2 x⌋ < 0 := by omega
    unfold interpWallDist interpT interpR0 interpR1
    by_cases hc : 256 ≤ ⌊rayIndexF 2 x⌋ + 1
    · simp only [if_pos hc, if_neg h0]
      refine ⟨255, 255, 0, by omega, by omega, by omega, by omega, Or.inl rfl,
        le_rfl, by norm_num, ?_⟩
      have h255 : ⌊rayIndexF 2 x⌋ = 255 := by omega
      rw [h255]
    · simp only [if_neg hc, if_neg h0]
      refine ⟨⌊rayIndexF 2 x⌋, ⌊rayIndexF 2 x⌋ + 1,
        rayIndexF 2 x - (⌊rayIndexF 2 x⌋ : ℚ), hr0, hr255, by omega, by omega,
        Or.inr rfl, ?_, ?_, rfl⟩
      · have := Int.floor_le (rayIndexF 2 x)
        linarith
      · have := Int.lt_floor_add_one (rayIndexF 2 x)
        linarith
  · intro h
    unfold renderSpriteColumn
    rw [if_pos h]
  · intro h y c
    unfold renderSpriteColumn
    rw [if_neg (not_lt.mpr h)]
    unfold spriteColumnPixels
    rw [List.mem_filterMap]
    constructor
    · rintro ⟨k, hk, hfk⟩
      rw [List.mem_range] at hk
      by_cases hs : spriteTexSample tex (spriteTexX texX_start sprite_w drawStartX x)
          texY_start sprite_h drawStartY (drawStartY + k) = 0xFFFF00FF
      · rw [if_pos hs] at hfk
        exact absurd hfk (by simp)
      · rw [if_neg hs] at hfk
        have heq := Option.some.inj hfk
        have hy : drawStartY + (k : ℤ) = y := congrArg (fun p => p.2.1) heq
        have hc : spriteShade (spriteTexSample tex
            (spriteTexX texX_start sprite_w drawStartX x)
            texY_start sprite_h drawStartY (drawStartY + k)) dist = c :=
          congrArg (fun p => p.2.2) heq
        refine ⟨by omega, by omega, by rw [← hy]; exact hs, by rw [← hy, hc]⟩
    · rintro ⟨hy1, hy2, hs, hc⟩
      refine ⟨(y - drawStartY).toNat, ?_, ?_⟩
      · rw [List.mem_range]
        omega
      · have hrw : drawStartY + (((y - drawStartY).toNat : ℕ) : ℤ) = y := by omega
        rw [hrw, if_neg hs, hc]

/-- Claim C6 witness: at screen column 512 with a uniform wall-distance
buffer of 100 a sprite at perpendicular distance 200 draws nothing. -/
theorem sprite_depth_spec_witness :
    renderSpriteColumn (fun _ => (100 : ℚ)) 2 200 10 (fun _ => 0) 0 64 0 64
      512 0 0 512 = [] := by
  obtain ⟨r0, r1, t, h1, h2, h3, h4, h5, h6, h7, heq⟩ :=
    (sprite_depth_spec (fun _ => (100 : ℚ)) 200 10 (fun _ => 0) 0 64 0 64
      512 0 0 512 (by norm_num) (by norm_num)).1
  have h100 : interpWallDist (fun _ => (100 : ℚ)) 2 512 = 100 := by
    rw [heq]
    ring
  exact (sprite_depth_spec (fun _ => (100 : ℚ)) 200 10 (fun _ => 0) 0 64 0 64
    512 0 0 512 (by norm_num) (by norm_num)).2.1 (by rw [h100]; norm_num)

end Raycast
